import Mathlib

/-!
Verification of the peak-finding / line-tracing / spectral-extraction core of
`gempy/library/tracing.py` (DRAGONS).

The Python source is shallowly embedded: machine floats become `ℚ`, numpy
arrays become `List ℚ`, Python `int()` truncation becomes `pyint`, Python `//`
becomes `Int.fdiv`, a value that may be `NaN`/`inf` becomes `Option ℚ`
(`none` = NaN or "no candidate"), and a computation that can raise an
exception returns `Option`/`Except` (`none` = the Python call raises).
External library calls (scipy spline construction and integration,
scipy ridge-line identification, the caller-supplied `collapse` function of
`trace_lines`, and the numerical values of the Ricker wavelet) are modelled
as explicit function parameters ("oracles"), universally quantified in the
theorems; everything the repository itself computes is translated directly
from the source.
-/

namespace Tracing

/-- Python `int(x)` on a float: truncation toward zero. -/
def pyint (x : ℚ) : ℤ := if 0 ≤ x then ⌊x⌋ else ⌈x⌉

/-- The clamp `max(-1, min(1, dx))` used in `pinpoint_peaks`. -/
def clamp1 (x : ℚ) : ℚ := max (-1) (min 1 x)

/-- Mean of a list of rationals (`np.mean`). -/
def listMean (l : List ℚ) : ℚ := l.sum / l.length

/-- Helper for `argmaxIdx`: scan keeping the first index of the maximum. -/
def argmaxAux : List ℚ → ℕ → ℕ → ℚ → ℕ
  | [], _, best, _ => best
  | x :: t, i, best, bv => if bv < x then argmaxAux t (i + 1) i x else argmaxAux t (i + 1) best bv

/-- `np.argmax` on a nonempty list: FIRST index attaining the maximum.
(The callers in this development never apply it to `[]`; `np.argmax([])`
raises, and every call site models that case as an aborting `none`.) -/
def argmaxIdx : List ℚ → ℕ
  | [] => 0
  | x :: t => argmaxAux t 1 0 x

/-- Helper for `argminIdx`. -/
def argminAux : List ℚ → ℕ → ℕ → ℚ → ℕ
  | [], _, best, _ => best
  | x :: t, i, best, bv => if x < bv then argminAux t (i + 1) i x else argminAux t (i + 1) best bv

/-- `np.argmin` on a nonempty list: FIRST index attaining the minimum. -/
def argminIdx : List ℚ → ℕ
  | [] => 0
  | x :: t => argminAux t 1 0 x

/-! ### `cwt_ricker` (tracing.py lines 1205-1217)

`cwt_ricker(data, widths)` builds, for each width, a Ricker wavelet kernel of
`N = int(min(10*width, len(data))) // 2 * 2 - 1` points (scipy `ricker`,
reversed and conjugated) and convolves it with the data using
`np.convolve(..., mode='same')`.  The numerical values of the scipy `ricker`
kernel involve `exp` and are modelled by an oracle `vals`; its LENGTH
(`np.arange(0, points)` gives `max(points, 0)` samples) is part of the model.
`np.convolve` raises `ValueError` when either argument is empty; that is the
`none` result. -/

/-- Full discrete convolution: entry `k` of `np.convolve(a, v)` (zero-padded). -/
def fullConv (a v : List ℚ) : List ℚ :=
  (List.range (a.length + v.length - 1)).map
    (fun k => ((List.range a.length).map
      (fun i => if i ≤ k then a.getD i 0 * v.getD (k - i) 0 else 0)).sum)

/-- `np.convolve(a, v, mode='same')`: the central `max(len(a), len(v))` samples
of the full convolution; raises (returns `none`) if either input is empty. -/
def convolveSame (a v : List ℚ) : Option (List ℚ) :=
  if a.isEmpty ∨ v.isEmpty then none
  else some (((fullConv a v).drop ((min a.length v.length - 1) / 2)).take
              (max a.length v.length))

/-- The kernel length `int(np.min([10 * width, len(data)])) // 2 * 2 - 1`. -/
def rickerLen (width : ℚ) (n : ℕ) : ℤ :=
  Int.fdiv (pyint (min (10 * width) (n : ℚ))) 2 * 2 - 1

/-- `np.conj(signal.ricker(N, width)[::-1])`: a kernel of `max(N, 0)` samples
whose values come from the oracle `vals`, reversed (`conj` is the identity on
real data). -/
def rickerKernel (vals : ℤ → ℚ → ℕ → ℚ) (width : ℚ) (n : ℕ) : List ℚ :=
  ((List.range (rickerLen width n).toNat).map (fun i => vals (rickerLen width n) width i)).reverse

/-- `cwt_ricker(data, widths)`: one convolution row per width, in order; the
whole call raises (returns `none`) as soon as one row's convolution raises. -/
def cwt_ricker (vals : ℤ → ℚ → ℕ → ℚ) (data : List ℚ) : List ℚ → Option (List (List ℚ))
  | [] => some []
  | w :: ws =>
    match convolveSame data (rickerKernel vals w data.length), cwt_ricker vals data ws with
    | some r, some rs => some (r :: rs)
    | _, _ => none

/-! ### `reject_bad_peaks` (tracing.py lines 684-703)

`reject_bad_peaks(peaks)` sorts its argument IN PLACE by SNR
(`peaks.sort(key=lambda x: x[1])`, a stable ascending sort), then repeatedly
deletes the last (brightest) element while more than 3 peaks remain and the
brightest exceeds 3 times the 4th brightest, and returns the very same list
object.  The value-level computation is `reject_bad_peaksList`; the
in-place/aliasing behaviour is modelled by a store of Python lists
(`PyStore`) indexed by references. -/

/-- The key order `lambda x: x[1]` (ascending SNR) of `peaks.sort`. -/
def snrLe (p q : ℚ × ℚ) : Prop := p.2 ≤ q.2

instance : DecidableRel snrLe := fun p q => by
  unfold snrLe
  infer_instance

instance : IsTotal (ℚ × ℚ) snrLe := ⟨fun a b => le_total a.2 b.2⟩

instance : IsTrans (ℚ × ℚ) snrLe := ⟨fun _ _ _ h1 h2 => le_trans h1 h2⟩

/-- Stable ascending sort by the second component (the SNR), as
`peaks.sort(key=lambda x: x[1])`; Python list sort and `insertionSort` are
both stable. -/
def sortBySnr (l : List (ℚ × ℚ)) : List (ℚ × ℚ) :=
  l.insertionSort snrLe

/-- The deletion loop of `reject_bad_peaks` (`diff = 3`): while more than 3
peaks remain and `peaks[-1][1] / peaks[-4][1] > 3`, delete the last.
Each iteration shortens the list, so `l.length` fuel suffices. -/
def rbpDropAux : ℕ → List (ℚ × ℚ) → List (ℚ × ℚ)
  | 0, l => l
  | fuel + 1, l =>
    if 3 < l.length ∧ 3 < (l.getD (l.length - 1) (0, 0)).2 / (l.getD (l.length - 4) (0, 0)).2
    then rbpDropAux fuel l.dropLast
    else l

/-- The value computed by `reject_bad_peaks` (sort by SNR, then prune). -/
def reject_bad_peaksList (peaks : List (ℚ × ℚ)) : List (ℚ × ℚ) :=
  rbpDropAux (sortBySnr peaks).length (sortBySnr peaks)

/-- A store of Python list objects, indexed by references (list identity). -/
abbrev PyStore : Type := List (List (ℚ × ℚ))

/-- `reject_bad_peaks` as a state transformer on the store: it mutates the
referenced list in place (sort + deletions) and returns the SAME reference. -/
def reject_bad_peaks (r : ℕ) (σ : PyStore) : ℕ × PyStore :=
  (r, List.set σ r (reject_bad_peaksList (σ.getD r [])))

/-! ### The `min_sep` cleanup loop of `find_peaks` (tracing.py lines 549-561) -/

/-- `np.diff`: successive differences. -/
def diffsQ (l : List ℚ) : List ℚ := List.zipWith (fun a b => b - a) l l.tail

/-- The index selected by `np.argmax(diffs < min_sep)`: `argmax` of a boolean
array returns the FIRST `True`, i.e. the first adjacent pair with gap below
`min_sep`; `none` when `all(diffs >= min_sep)` (the loop's exit test). -/
def firstBadIdx (s : ℚ) (l : List ℚ) : Option ℕ :=
  (diffsQ l).findIdx? (fun d => decide (d < s))

/-- One iteration of the cleanup loop (lines 554-561): re-pinpoint the pair
`peaks[i:i+2]`, `del peaks[i+1]`, then overwrite `peaks[i]` with the mean of
the re-pinpointed peaks, or `del peaks[i]` too if nothing came back. -/
def minSepStep (pin : List ℚ → List ℚ) (i : ℕ) (l : List ℚ) : List ℚ :=
  let newPeaks := pin ((l.drop i).take 2)
  if newPeaks.isEmpty then l.take i ++ l.drop (i + 2)
  else l.take i ++ listMean newPeaks :: l.drop (i + 2)

/-- The cleanup loop, with fuel and an iteration counter.  Every iteration
removes at least one element, so `l.length` fuel is enough (see
`minSepLoopC_fuel`). -/
def minSepLoopC (pin : List ℚ → List ℚ) (s : ℚ) : ℕ → List ℚ → List ℚ × ℕ
  | 0, l => (l, 0)
  | fuel + 1, l =>
    match firstBadIdx s l with
    | none => (l, 0)
    | some i =>
      let r := minSepLoopC pin s fuel (minSepStep pin i l)
      (r.1, r.2 + 1)

/-- The `while True` cleanup loop of lines 550-561. -/
def minSepLoop (pin : List ℚ → List ℚ) (s : ℚ) (l : List ℚ) : List ℚ :=
  (minSepLoopC pin s l.length l).1

/-- Modelled from the spec wording of claim C6 ("find the closest
under-separated adjacent pair"): the same loop but selecting the adjacent
pair with the SMALLEST gap (when any gap is below `min_sep`, the globally
smallest gap is an under-separated one).  Exists only to be compared with
the source-derived `minSepLoop`. -/
def spec_minSepLoopF (pin : List ℚ → List ℚ) (s : ℚ) : ℕ → List ℚ → List ℚ
  | 0, l => l
  | fuel + 1, l =>
    if (diffsQ l).all (fun d => decide (s ≤ d)) then l
    else spec_minSepLoopF pin s fuel (minSepStep pin (argminIdx (diffsQ l)) l)

/-- Spec-worded variant of `minSepLoop` (claim C6), smallest-gap selection. -/
def spec_minSepLoop (pin : List ℚ → List ℚ) (s : ℚ) (l : List ℚ) : List ℚ :=
  spec_minSepLoopF pin s l.length l

/-! ### The `find_peaks` pipeline (tracing.py lines 447-583)

The stages before line 504 (boxcar smoothing, the wavelet transform, the
scipy ridge-line identification and filtering) live in scipy or are modelled
elsewhere; their output — the candidate peak indices `[x[1][0] for x in
filtered]` — is the oracle parameter `cands`, and the per-pixel SNR array of
lines 513-520 is the oracle `snrF`.  `pinpoint_peaks` is modelled separately
(see below); inside `find_peaks` it enters through the oracle `pin` so that
the list-level guarantees hold for every pinpointing behaviour. -/

/-- Run-splitting helper for the adjacent-candidate merge: the maximal leading
run of candidates whose successive separations are ≤ 1 (lines 527-529). -/
def takeRun : List ℤ → List ℤ
  | [] => []
  | [a] => [a]
  | a :: b :: t => if b - a ≤ 1 then a :: takeRun (b :: t) else [a]

/-- `np.mean` of integer pixel indices. -/
def intMean (l : List ℤ) : ℚ := ((l.sum : ℤ) : ℚ) / l.length

/-- The "remove adjacent points" merge of lines 524-533, with the quirk of
the source kept: right after consuming a run, if exactly one candidate
remains (`i == len(peaks) - 1`) that candidate is appended once immediately
and once more as its own final run. -/
def mergeAdjacentF : ℕ → List ℤ → List ℚ
  | 0, _ => []
  | _, [] => []
  | fuel + 1, a :: t =>
    let g := takeRun (a :: t)
    let rest := (a :: t).drop g.length
    intMean g :: (if rest.length = 1 then [((rest.headD 0 : ℤ) : ℚ), ((rest.headD 0 : ℤ) : ℚ)]
                  else mergeAdjacentF fuel rest)

/-- Entry point for the adjacent-candidate merge loop. -/
def mergeAdjacent (l : List ℤ) : List ℚ := mergeAdjacentF l.length l

/-- Clamp an index the way a Python slice endpoint is clamped for a sequence
of length `n` (negative indices count from the end). -/
def pyIdxClamp (n : ℕ) (i : ℤ) : ℕ := if i < 0 then (max ((n : ℤ) + i) 0).toNat else (min i (n : ℤ)).toNat

/-- The index set of the Python slice `l[lo:hi]` for a sequence of length `n`. -/
def pySliceRange (n : ℕ) (lo hi : ℤ) : List ℕ :=
  (List.range (pyIdxClamp n hi - pyIdxClamp n lo)).map (fun k => pyIdxClamp n lo + k)

/-- `np.sum(mask[int(x-edge):int(x+edge+1)]) == 0` (line 542). -/
def maskWindowClear (maskB : ℕ → Bool) (n : ℕ) (x edge : ℚ) : Bool :=
  (pySliceRange n (pyint (x - edge)) (pyint (x + edge + 1))).all (fun k => !maskB k)

/-- The tuple order used by Python `sorted` on `(location, snr)` pairs. -/
def pairLe (p q : ℚ × ℚ) : Prop := p.1 < q.1 ∨ (p.1 = q.1 ∧ p.2 ≤ q.2)

instance : DecidableRel pairLe := fun p q => by
  unfold pairLe
  infer_instance

instance : IsTotal (ℚ × ℚ) pairLe := ⟨fun a b => by
  unfold pairLe
  rcases lt_trichotomy a.1 b.1 with h | h | h
  · exact Or.inl (Or.inl h)
  · rcases le_total a.2 b.2 with h2 | h2
    · exact Or.inl (Or.inr ⟨h, h2⟩)
    · exact Or.inr (Or.inr ⟨h.symm, h2⟩)
  · exact Or.inr (Or.inl h)⟩

instance : IsTrans (ℚ × ℚ) pairLe := ⟨fun a b c h1 h2 => by
  unfold pairLe at h1 h2 ⊢
  rcases h1 with h1 | ⟨e1, s1⟩ <;> rcases h2 with h2 | ⟨e2, s2⟩
  · exact Or.inl (lt_trans h1 h2)
  · exact Or.inl (e2 ▸ h1)
  · exact Or.inl (e1 ▸ h2)
  · exact Or.inr ⟨e1.trans e2, s1.trans s2⟩⟩

/-- The inputs of the modelled part of `find_peaks`:
`pin hw peaks` is the `pinpoint_peaks(pinpoint_data, mask, peaks, halfwidth=hw)`
oracle (the spline-level model of `pinpoint_peaks` is developed separately);
`snrF` is the per-pixel SNR array of lines 513-520; `maskB` the boolean mask;
`cands` the ridge-line candidate indices produced by the scipy ridge filter
(line 501-503); `n = len(data)`; `maxWidth = max(widths)`;
`hw0 = int(np.median(widths) + 0.5)`. -/
structure FPArgs where
  pin : ℕ → List ℚ → List ℚ
  snrF : ℤ → ℚ
  maskB : ℕ → Bool
  cands : List ℤ
  n : ℕ
  maxWidth : ℚ
  min_snr : ℚ
  min_sep : ℚ
  hw0 : ℕ
  rejectBad : Bool

/-- Lines 504-542 of `find_peaks`: sort the ridge candidates, keep those with
`snr[x] > min_snr`, merge adjacent candidates, drop candidates within
`2.35482 * max(widths)` of either edge, and drop candidates whose
`±edge`-window touches a masked pixel. -/
def find_peaks_candidates (A : FPArgs) : List ℚ :=
  let peaks0 := A.cands.insertionSort (fun a b => a ≤ b)
  let peaks1 := peaks0.filter (fun x => decide (A.min_snr < A.snrF x))
  let peaks2 := mergeAdjacent peaks1
  let edge := (235482 : ℚ) / 100000 * A.maxWidth
  let peaks3 := peaks2.filter (fun p => decide (edge < p ∧ p < (A.n : ℚ) - 1 - edge))
  peaks3.filter (fun x => maskWindowClear A.maskB A.n x edge)

/-- Line 546: refine the surviving candidates with `pinpoint_peaks`
(halfwidth `int(np.median(widths)+0.5)`). -/
def find_peaks_pinned (A : FPArgs) : List ℚ :=
  A.pin A.hw0 (find_peaks_candidates A)

/-- Lines 549-561: the `min_sep` cleanup loop (the inner re-pinpointing uses
the default halfwidth 4). -/
def find_peaks_cleaned (A : FPArgs) : List ℚ :=
  minSepLoop (A.pin 4) A.min_sep (find_peaks_pinned A)

/-- Lines 563-564: final SNR filter and pairing with `snr[int(p + 0.5)]`. -/
def find_peaks_pairs (A : FPArgs) : List (ℚ × ℚ) :=
  ((find_peaks_cleaned A).filter
      (fun p => decide (A.min_snr < A.snrF (pyint (p + 1/2))))).map
    (fun p => (p, A.snrF (pyint (p + 1/2))))

/-- Lines 568-571: the `good_peaks` list (optional `reject_bad_peaks`). -/
def find_peaks_good (A : FPArgs) : List (ℚ × ℚ) :=
  if A.rejectBad then reject_bad_peaksList (find_peaks_pairs A) else find_peaks_pairs A

/-- `find_peaks` (lines 447-583) from the ridge-line candidates on: the final
`T = np.array(sorted(good_peaks)).T`, as the pair (locations row, SNRs row);
`([], [])` is the 2×0 array returned when `good_peaks` is empty. -/
def find_peaks (A : FPArgs) : List ℚ × List ℚ :=
  (((find_peaks_good A).insertionSort pairLe).map Prod.fst,
   ((find_peaks_good A).insertionSort pairLe).map Prod.snd)

/-- Arguments on which every stage of `find_peaks` filters everything out. -/
def fpEmptyArgs : FPArgs :=
  ⟨fun _ _ => [], fun _ => 0, fun _ => false, [], 10, 3, 1, 1, 4, true⟩

/-! ### `pinpoint_peaks` (tracing.py lines 586-681)

`pinpoint_peaks(data, mask, peaks, halfwidth=4, threshold=0)` recenters each
peak with an IRAF-style triangle centroid computed from definite integrals of
two cubic splines fitted to `masked_data` and `masked_data * xvalues`.  The
scipy spline construction and `BSpline.integrate` are external; they are
modelled by two oracles `splO1 splO2 : List ℚ → ℚ → ℚ → ℚ` giving, for the
masked data array, the definite integral between two bounds.  A call such as
`np.argmax` on an empty slice (a far-out-of-range peak) raises `ValueError`,
which aborts the whole call: the model returns `none`. -/

/-- Lines 619-623: `masked_data` (zero at masked samples and below-threshold
samples when a mask is given; plain `data - threshold` when `mask is None`). -/
def pinpointMaskedData (data : List ℚ) (mask : Option (List Bool)) (threshold : ℚ) : List ℚ :=
  match mask with
  | none => data.map (fun d => d - threshold)
  | some m => List.zipWith (fun d mi => if mi || decide (d < threshold) then 0 else d - threshold) data m

/-- The 50-iteration centroiding loop (lines 647-676), with the spline
integrals as oracles `I1 I2`, returning the converged position (`none` when
the loop breaks without a result) and the number of iterations executed.
State: `xc`, `dxlast`, `dxcheck` as in the source; each iteration integrates
over `[xc-hw, xc-hw/2, xc+hw/2, xc+hw]`, forms the triangle sums, steps `xc`
by the clamped `dx`, and applies the convergence / bounds / stall tests in
source order. -/
def centroidLoop (I1 I2 : ℚ → ℚ → ℚ) (hw npts : ℚ) :
    ℕ → ℚ → ℚ → ℕ → Option ℚ × ℕ
  | 0, _, _, _ => (none, 0)
  | fuel + 1, xc, dxlast, dxcheck =>
    let s1a := I1 (xc - hw) (xc - hw/2)
    let s1b := I1 (xc - hw/2) (xc + hw/2)
    let s1c := I1 (xc + hw/2) (xc + hw)
    let s2a := I2 (xc - hw) (xc - hw/2)
    let s2b := I2 (xc - hw/2) (xc + hw/2)
    let s2c := I2 (xc + hw/2) (xc + hw)
    let sum1 := s2b - s2a - s2c + (xc - hw) * s1a - xc * s1b + (xc + hw) * s1c
    let sum2 := s1b - s1a - s1c
    if sum2 = 0 then (none, 1)
    else
      let dx := sum1 / abs sum2
      let xc' := xc + clamp1 dx
      if xc' < hw ∨ xc' > npts - hw then (none, 1)
      else if abs dx < 1/1000 then (some xc', 1)
      else if abs dx > dxlast + 1/1000 then
        (if dxcheck + 1 > 3 then (none, 1)
         else
           let r := centroidLoop I1 I2 hw npts fuel xc' dxlast (dxcheck + 1)
           (r.1, r.2 + 1))
      else if abs dx > dxlast - 1/1000 then
        let r := centroidLoop I1 I2 hw npts fuel (xc' - 1/2 * clamp1 dx) dxlast 0
        (r.1, r.2 + 1)
      else
        let r := centroidLoop I1 I2 hw npts fuel xc' (abs dx) 0
        (r.1, r.2 + 1)

/-- Lines 627-679 for a single peak: snap to the local integer maximum within
±1 pixel (`np.argmax` over `masked_data[max(xc-1,0):min(xc+2,npts)]`, raising
on an empty slice — outer `none`), skip the peak when the snapped position is
outside `[halfwidth, npts - halfwidth]` (inner `none`), else run the
centroiding loop (at most 50 iterations) with `dxlast = x2 - x1 = 2hw + 1`. -/
def processPeak (I1 I2 : ℚ → ℚ → ℚ) (md : List ℚ) (npts hw : ℕ) (peak : ℚ) :
    Option (Option ℚ) :=
  let xc0 : ℤ := pyint (peak + 1/2)
  let lo : ℤ := max (xc0 - 1) 0
  let hi : ℤ := min (xc0 + 2) (npts : ℤ)
  if hi ≤ lo then none
  else
    let window := (md.drop lo.toNat).take (hi - lo).toNat
    let xc1 : ℤ := (argmaxIdx window : ℤ) + xc0 - 1
    if xc1 < (hw : ℤ) ∨ xc1 > (npts : ℤ) - (hw : ℤ) then some none
    else some (centroidLoop I1 I2 (hw : ℚ) (npts : ℚ) 50 (xc1 : ℚ) (2 * hw + 1 : ℚ) 0).1

/-- The `for peak in peaks` loop: sequential, collecting converged positions
in order; an exception at any peak aborts the whole call. -/
def pinpointFold (I1 I2 : ℚ → ℚ → ℚ) (md : List ℚ) (npts hw : ℕ) :
    List ℚ → Option (List ℚ)
  | [] => some []
  | p :: t =>
    match processPeak I1 I2 md npts hw p with
    | none => none
    | some none => pinpointFold I1 I2 md npts hw t
    | some (some x) => (pinpointFold I1 I2 md npts hw t).map (fun rest => x :: rest)

/-- `pinpoint_peaks` (lines 586-681): `halfwidth = max(halfwidth, 2)`,
`npts = len(data)`; returns `[]` immediately when the masked data is
identically zero. -/
def pinpoint_peaks (splO1 splO2 : List ℚ → ℚ → ℚ → ℚ) (data : List ℚ)
    (mask : Option (List Bool)) (peaks : List ℚ) (halfwidth : ℕ) (threshold : ℚ) :
    Option (List ℚ) :=
  let hw := max halfwidth 2
  let md := pinpointMaskedData data mask threshold
  if md.all (fun x => decide (x = 0)) then some []
  else pinpointFold (splO1 md) (splO2 md) md data.length hw peaks

/-- Antiderivative of the triangular bump `t ↦ max(0, 2 - |t - c|)`: a stand-in
for the integral of the cubic spline through a symmetric peak of height 2 at
pixel `c` (used to instantiate the spline oracles at concrete inputs). -/
def tentI (c x : ℚ) : ℚ :=
  if x ≤ c - 2 then 0
  else if x ≤ c then (x - c + 2) * (x - c + 2) / 2
  else if x ≤ c + 2 then 4 - (c + 2 - x) * (c + 2 - x) / 2
  else 4

/-- Antiderivative of `t ↦ t * max(0, 2 - |t - c|)` (the companion
`x * data` spline integral for the same symmetric peak). -/
def tentXI (c x : ℚ) : ℚ :=
  if x ≤ c - 2 then 0
  else if x ≤ c then
    (x*x*x/3 - (c-2)*x*x/2) - ((c-2)*(c-2)*(c-2)/3 - (c-2)*(c-2)*(c-2)/2)
  else if x ≤ c + 2 then
    ((c*c*c/3 - (c-2)*c*c/2) - ((c-2)*(c-2)*(c-2)/3 - (c-2)*(c-2)*(c-2)/2))
      + ((c+2)*x*x/2 - x*x*x/3) - ((c+2)*c*c/2 - c*c*c/3)
  else 4*c

/-! ### The `optimal_extraction` iteration loop (tracing.py lines 201-244)

The numerical body of the `while True` loop (Chebyshev profile fits with
outlier-clipped least squares, variance-model evaluation, cosmic-ray
flagging, inverse-variance-weighted sums — lines 203-238) is abstracted as a
state transformer `step` with `um` extracting the `unmask` boolean array
computed at line 232 (`(mask & BAD_BITS) == 0`); the model captures the
loop CONTROL of lines 240-244 exactly: before the loop `unmask` is all ones
(`init`), `iter` counts body executions, and after each body the loop stops
when the new unmask equals the previous one (`np.sum(unmask ^ last_unmask)
== 0`) or when `max_iters is not None and iter > max_iters`. -/

/-- The loop control of lines 201, 240-244: `n` is the number of bodies
already executed, `last` the unmask of the previous body (initially the
all-ones array of line 199); returns the total number of body executions, or
`none` when the given fuel is exhausted before either exit condition fires
(with `max_iters = none` no iteration ceiling exists in the control). -/
def oeLoopCount {σ : Type} (step : σ → σ) (um : σ → List Bool) (miters : Option ℕ) :
    ℕ → σ → List Bool → ℕ → Option ℕ
  | 0, _, _, _ => none
  | fuel + 1, s, last, n =>
    let s' := step s
    let u := um s'
    let n' := n + 1
    if u == last || (match miters with | some m => decide (m < n') | none => false)
    then some n'
    else oeLoopCount step um miters fuel s' u n'

/-- The sequence of unmask arrays: `init` before the loop, then the unmask
after the k-th body execution. -/
def oeUnmaskSeq {σ : Type} (step : σ → σ) (um : σ → List Bool) (init : List Bool)
    (s0 : σ) (k : ℕ) : List Bool :=
  if k = 0 then init else um (step^[k] s0)

/-- The loop with `max_iters = m` set: `m + 1` fuel provably suffices. -/
def oeRun {σ : Type} (step : σ → σ) (um : σ → List Bool) (m : ℕ) (s0 : σ)
    (init : List Bool) : Option ℕ :=
  oeLoopCount step um (some m) (m + 1) s0 init 0

/-! ### The `estimate_peak_width` loop (tracing.py lines 406-444)

`while len(widths) < 10 and niters < 100`: find the brightest unblocked
pixel, measure its width (`scipy.signal.peak_widths`, the oracle `widthO`),
record it when the `2*FWHM` block around it is clean and the width positive,
block that window, and count the iteration. -/

/-- The loop state: collected widths, the good-pixel mask, and `niters`. -/
structure EPWState where
  widths : List ℚ
  goodpix : List Bool
  niters : ℕ

/-- One iteration of the `estimate_peak_width` loop (lines 432-443). -/
def epwStep (data : List ℚ) (widthO : ℕ → ℚ) (st : EPWState) : EPWState :=
  let index := argmaxIdx (List.zipWith (fun d g => if g then d else 0) data st.goodpix)
  let width := widthO index
  let hi : ℤ := pyint ((index : ℚ) + width + 3/2)
  let lo : ℤ := pyint ((index : ℚ) - width)
  let sl := pySliceRange st.goodpix.length lo hi
  let widths' := if (sl.all (fun k => st.goodpix.getD k true)) && decide (0 < width)
                 then st.widths ++ [width] else st.widths
  let goodpix' := (List.range st.goodpix.length).map
      (fun k => if k ∈ sl then false else st.goodpix.getD k false)
  ⟨widths', goodpix', st.niters + 1⟩

/-- The `while len(widths) < 10 and niters < 100` loop; `niters` increments
every iteration, so 100 fuel is exact. -/
def epwLoop (data : List ℚ) (widthO : ℕ → ℚ) : ℕ → EPWState → EPWState
  | 0, st => st
  | fuel + 1, st =>
    if st.widths.length < 10 ∧ st.niters < 100
    then epwLoop data widthO fuel (epwStep data widthO st)
    else st

/-- The loop of `estimate_peak_width`, from the initial empty-width state. -/
def estimate_peak_width_loop (data : List ℚ) (widthO : ℕ → ℚ)
    (goodpix0 : List Bool) : EPWState :=
  epwLoop data widthO 100 ⟨[], goodpix0, 0⟩

/-! ### `trace_lines` (tracing.py lines 889-1106)

The model covers the code after the orientation transpose, with the
caller-supplied collapse function `func` (an external interface: it reduces a
block of rows to 1D data/mask/variance) as the oracle `funcO`, keyed by the
current step sign, the current row `ypos` and the binning level `i` — the
slices fed to `func` are determined by exactly these.  The spline integrals
inside the `pinpoint_peaks` calls are the same oracles `splO1`/`splO2` as in
the `pinpoint_peaks` model.  The `rwidth=None` path is modelled (a Ricker
`rwidth` only transforms the collapsed values, which are already arbitrary
through `funcO`).  `NaN` positions are `none`; `np.inf` ("no candidate") is
`none` as a candidate; a Python exception is the `Except.ok none` outcome and
fuel exhaustion of the stepping loop is `Except.error ()` (the real loop has
no fuel; `tracePassLoop_no_fuel_exhaustion` shows `shape0`-derived fuel is
never exhausted for positive steps). -/

/-- The triple returned by one call of the collapse function `func`:
1D data, optional integer mask, and variance. -/
structure Collapsed where
  d : List ℚ
  m : Option (List ℕ)
  v : List ℚ
deriving DecidableEq

/-- The parameters and oracles of a `trace_lines` call (after orientation):
`shape0 × shape1` image, `nsum`, `max_missed`, centroid `halfwidth =
cwidth // 2`, `max_shift`, the spline-integral oracles and the collapse
oracle. -/
structure TraceParams where
  shape0 : ℕ
  shape1 : ℕ
  nsum : ℕ
  max_missed : ℕ
  halfwidth : ℕ
  max_shift : ℚ
  splO1 : List ℚ → ℚ → ℚ → ℚ
  splO2 : List ℚ → ℚ → ℚ → ℚ
  funcO : ℤ → ℤ → ℕ → Collapsed

/-- The per-direction loop state: for each traced feature its
`last_coords[i]` (row, position-or-NaN) and its `coord_lists[i]`, plus the
persistent preallocated `mask` buffer and the frame-level `lookback`. -/
structure TraceSt where
  feats : List ((ℚ × Option ℚ) × List (ℚ × ℚ))
  maskBuf : List (List ℕ)
  lookback : ℕ
deriving DecidableEq

/-- Lines 1023-1028 for one binning level (the `rwidth=None` branch):
`var[i] = np.where(v <= 0, np.inf, v)` and
`data[i] = np.where(d / np.sqrt(var[i]) > 0.5, d, 0)`; over `ℚ` the
condition `d / sqrt(var) > 0.5` is `0 < v ∧ 0 < d ∧ v < 4·d·d` (false at
infinite variance). -/
def traceDataRow (c : Collapsed) : List ℚ :=
  List.zipWith
    (fun dk vk => if decide (0 < dk) && decide (0 < vk) && decide (vk < 4 * dk * dk)
                  then dk else 0) c.d c.v

/-- Line 1029-1030: `if m is not None: mask[i] = m` for each built level —
levels whose collapse returns no mask keep the buffer's previous (possibly
stale) contents. -/
def traceMaskBuf (P : TraceParams) (stepv ypos : ℤ) (lookback : ℕ)
    (mb : List (List ℕ)) : List (List ℕ) :=
  (List.range (lookback + 1)).foldl
    (fun acc i => match (P.funcO stepv ypos i).m with
      | some mm => acc.set i mm
      | none => acc) mb

/-- The numeric mask array passed to `pinpoint_peaks` (nonzero = masked). -/
def maskRowBool (row : List ℕ) : List Bool := row.map (fun x => decide (x ≠ 0))

/-- The tolerance-growing candidate-matching loop of lines 1053-1064, for one
feature: `rem` is the number of remaining `j` values (`min(steps_missed,
lookback) + 1` at entry, so `rem = 0` is the for-else "not found" outcome);
at each `j`, accept the candidate within `max_shift * (j+1) * |step|`, else
re-pinpoint the old position on the next coarser binned profile
(`data[j+1]`, `mask[j+1]`) while `j < lookback` (an `IndexError` on an empty
result becomes the `np.inf` candidate `none`; a raising `pinpoint_peaks`
aborts everything). -/
def traceMatchLoop (P : TraceParams) (stepv ypos : ℤ) (lookback : ℕ)
    (dataRows : List (List ℚ)) (mb : List (List ℕ)) (oldPeak : ℚ) :
    ℕ → ℕ → Option ℚ → Option (Option (ℚ × ℚ))
  | 0, _, _ => some none
  | rem + 1, j, newPeak =>
    let tolerance := P.max_shift * ((j : ℚ) + 1) * |(stepv : ℚ)|
    if (match newPeak with
        | some np2 => decide (|np2 - oldPeak| ≤ tolerance)
        | none => false)
    then some (some ((ypos : ℚ) - (j : ℚ) * (stepv : ℚ) / 2, newPeak.getD 0))
    else if j < lookback then
      match pinpoint_peaks P.splO1 P.splO2 (dataRows.getD (j + 1) [])
          (some (maskRowBool (mb.getD (j + 1) []))) [oldPeak] P.halfwidth 0 with
      | none => none
      | some ps => traceMatchLoop P stepv ypos lookback dataRows mb oldPeak rem (j + 1) ps.head?
    else traceMatchLoop P stepv ypos lookback dataRows mb oldPeak rem (j + 1) newPeak

/-- Lines 1040-1088 for one feature: skip if already NaN; select the nearest
pinpointed candidate (`np.inf`, i.e. `none`, when there are none); run the
matching loop over `j = 0 .. min(steps_missed, lookback)`; on no match mark
the feature `[ypos, NaN]` when `steps_missed > max_missed`; on a match
reject positions within half a centroid halfwidth of the spatial edge
(`last_coords[i][1] = NaN`, keeping the old row), else append the new
coordinate and advance `last_coords[i]`. -/
def traceFeatureStep (P : TraceParams) (stepv ypos : ℤ) (lookback : ℕ)
    (dataRows : List (List ℚ)) (mb : List (List ℕ)) (peaks : List ℚ)
    (f : (ℚ × Option ℚ) × List (ℚ × ℚ)) : Option ((ℚ × Option ℚ) × List (ℚ × ℚ)) :=
  match f.1.2 with
  | none => some f
  | some oldPeak =>
    let newPeak0 : Option ℚ :=
      if peaks.isEmpty then none
      else some (peaks.getD (argminIdx (peaks.map (fun q => |q - oldPeak|))) 0)
    let steps_missed : ℤ := pyint (|((ypos : ℚ) - f.1.1) / (stepv : ℚ)|) - 1
    let iters : ℕ := (min steps_missed (lookback : ℤ) + 1).toNat
    match traceMatchLoop P stepv ypos lookback dataRows mb oldPeak iters 0 newPeak0 with
    | none => none
    | some none =>
      if steps_missed > (P.max_missed : ℤ) then some (((ypos : ℚ), none), f.2)
      else some f
    | some (some c) =>
      if c.2 < (P.halfwidth : ℚ) ∨ c.2 > (P.shape1 : ℚ) - (P.halfwidth : ℚ) / 2
      then some ((f.1.1, none), f.2)
      else some ((c.1, some c.2), f.2 ++ [c])

/-- The `for i, (last_row, old_peak) in enumerate(last_coords)` loop:
sequential over the features, aborting everything on an exception. -/
def traceFeaturesFold (P : TraceParams) (stepv ypos : ℤ) (lookback : ℕ)
    (dataRows : List (List ℚ)) (mb : List (List ℕ)) (peaks : List ℚ) :
    List ((ℚ × Option ℚ) × List (ℚ × ℚ)) →
    Option (List ((ℚ × Option ℚ) × List (ℚ × ℚ)))
  | [] => some []
  | f :: t =>
    match traceFeatureStep P stepv ypos lookback dataRows mb peaks f with
    | none => none
    | some f' =>
      (traceFeaturesFold P stepv ypos lookback dataRows mb peaks t).map
        (fun rest => f' :: rest)

/-- The per-direction `while True` loop of lines 1005-1094: advance `ypos`,
grow `lookback` (capped at `max_missed`), break on leaving the
`[nsum/2, shape0 - nsum/2]` range, build the binned profiles, and — unless
the freshest collapse is completely dead (fully masked or all-infinite variance, in
which case `lookback` resets to 0) — pinpoint all live features and match
each one; break when every feature is lost. -/
def tracePassLoop (P : TraceParams) (stepv : ℤ) :
    ℕ → ℤ → TraceSt → Except Unit (Option TraceSt)
  | 0, _, _ => Except.error ()
  | fuel + 1, ypos, st =>
    let ypos' := ypos + stepv
    let lb := min (st.lookback + 1) P.max_missed
    if (ypos' : ℚ) < (P.nsum : ℚ) / 2 ∨ (ypos' : ℚ) > (P.shape0 : ℚ) - (P.nsum : ℚ) / 2
    then Except.ok (some st)
    else
      let dataRows := (List.range (lb + 1)).map (fun i => traceDataRow (P.funcO stepv ypos' i))
      let mb := traceMaskBuf P stepv ypos' lb st.maskBuf
      let v0 := (P.funcO stepv ypos' 0).v
      if ((mb.getD 0 []).any (fun x => x == 0)) && !(v0.all (fun x => decide (x ≤ 0)))
      then
        match pinpoint_peaks P.splO1 P.splO2 (dataRows.getD 0 [])
            (some (maskRowBool (mb.getD 0 []))) (st.feats.filterMap (fun f => f.1.2))
            P.halfwidth 0 with
        | none => Except.ok none
        | some peaks =>
          match traceFeaturesFold P stepv ypos' lb dataRows mb peaks st.feats with
          | none => Except.ok none
          | some feats' =>
            if feats'.all (fun f => f.1.2.isNone)
            then Except.ok (some ⟨feats', mb, lb⟩)
            else tracePassLoop P stepv fuel ypos' ⟨feats', mb, lb⟩
      else
        if st.feats.all (fun f => f.1.2.isNone)
        then Except.ok (some ⟨st.feats, mb, 0⟩)
        else tracePassLoop P stepv fuel ypos' ⟨st.feats, mb, 0⟩

/-- Lines 977-992: the optional initial re-pinpointing of the caller's peaks
on the starting collapse (`initCollapsed`); with a tolerance set, peaks are
re-centred and silently dropped when they fail to recentre within it
(`np.argmin` on an empty candidate array raises → `none`). -/
def traceInitialPeaks (P : TraceParams) (initCollapsed : Collapsed)
    (initial : List ℚ) (initial_tolerance : Option ℚ) : Option (List ℚ) :=
  match initial_tolerance with
  | none => some initial
  | some tol =>
    match pinpoint_peaks P.splO1 P.splO2 initCollapsed.d
        (initCollapsed.m.map maskRowBool) initial 4 0 with
    | none => none
    | some peaks =>
      if peaks.isEmpty && !initial.isEmpty then none
      else some (initial.filterMap (fun peak =>
        let np2 := peaks.getD (argminIdx (peaks.map (fun q => |q - peak|))) 0
        if |np2 - peak| ≤ tol then some np2 else none))

/-- `trace_lines` (lines 889-1106): initial peak refinement, the forward pass
from `start` with step `stepv`, re-seeding `last_coords` from the initial
peaks (the `coord_lists` and the mask buffer persist), the backward pass with
`-stepv`, and the final assembly of `(ref_coords, in_coords)` (components
swapped when `axis = 0`). -/
def trace_lines (P : TraceParams) (axis : ℕ) (start : ℤ) (initial : List ℚ)
    (initial_tolerance : Option ℚ) (initCollapsed : Collapsed) (stepv : ℤ)
    (fuel : ℕ) : Except Unit (Option (List (ℚ × ℚ) × List (ℚ × ℚ))) :=
  match traceInitialPeaks P initCollapsed initial initial_tolerance with
  | none => Except.ok none
  | some initial_peaks =>
    let mb0 : List (List ℕ) := List.replicate (P.max_missed + 1) (List.replicate P.shape1 0)
    match tracePassLoop P stepv fuel start
        ⟨initial_peaks.map (fun p => (((start : ℚ), some p), [])), mb0, 0⟩ with
    | Except.error _ => Except.error ()
    | Except.ok none => Except.ok none
    | Except.ok (some st1) =>
      match tracePassLoop P (-stepv) fuel start
          ⟨(st1.feats.zip initial_peaks).map
            (fun fp => (((start : ℚ), some fp.2), fp.1.2)), st1.maskBuf, 0⟩ with
      | Except.error _ => Except.error ()
      | Except.ok none => Except.ok none
      | Except.ok (some st3) =>
        let inc := st3.feats.foldr (fun f acc => f.2 ++ acc) []
        let refc := (st3.feats.zip initial_peaks).foldr
            (fun fp acc => fp.1.2.map (fun c => (c.1, fp.2)) ++ acc) []
        Except.ok (some (if axis = 1 then (refc, inc)
                         else (refc.map Prod.swap, inc.map Prod.swap)))

/-- The number of `true` entries of a boolean array (the live part of the
`unmask` in `optimal_extraction`). -/
def countTrue (l : List Bool) : ℕ := l.count true

/-- Concrete collapse oracle for the `trace_lines` counterexample: zero flux
everywhere except at row 2 of the backward pass, where the collapsed profile
is a symmetric peak at position 4. -/
def traceCexFunc : ℤ → ℤ → ℕ → Collapsed :=
  fun st yp _ =>
    if st = -1 ∧ yp = 2
    then ⟨[0, 0, 0, 1, 2, 1, 0, 0, 0], none, List.replicate 9 1⟩
    else ⟨List.replicate 9 0, none, List.replicate 9 1⟩

/-- Concrete parameters for the `trace_lines` counterexample: a 7 × 9 image,
`nsum = 1`, `max_missed = 0`, centroid halfwidth 2, `max_shift = 10`, tent
integrals around position 4 as the spline oracles. -/
def traceCexParams : TraceParams :=
  ⟨7, 9, 1, 0, 2, 10,
   fun _ x1 x2 => tentI 4 x2 - tentI 4 x1,
   fun _ x1 x2 => tentXI 4 x2 - tentXI 4 x1,
   traceCexFunc⟩

/-- The initial state of the counterexample's forward pass: one feature
seeded at row 3, position 4. -/
def traceCexSt0 : TraceSt :=
  ⟨[(((3 : ℚ), some 4), [])], [List.replicate 9 0], 0⟩

instance {ε α : Type} [DecidableEq ε] [DecidableEq α] : DecidableEq (Except ε α) := fun a b =>
  match a, b with
  | Except.ok x, Except.ok y =>
    if h : x = y then isTrue (by rw [h]) else isFalse (fun hc => h (Except.ok.inj hc))
  | Except.error x, Except.error y =>
    if h : x = y then isTrue (by rw [h]) else isFalse (fun hc => h (Except.error.inj hc))
  | Except.ok _, Except.error _ => isFalse (fun hc => Except.noConfusion hc)
  | Except.error _, Except.ok _ => isFalse (fun hc => Except.noConfusion hc)

/-- A state whose second feature is already lost (NaN) but owns a nonempty
track: input of the within-pass no-resurrection witness. -/
def traceCexStLost : TraceSt :=
  ⟨[(((3 : ℚ), some 4), []), (((5 : ℚ), none), [((1 : ℚ), (2 : ℚ))])],
   [List.replicate 9 0], 0⟩

/-- The state in which the forward pass over the all-zero region ends when
started from `traceCexStLost`: both features lost, the second one's track
untouched. -/
def traceCexStLostEnd : TraceSt :=
  ⟨[(((5 : ℚ), none), []), (((5 : ℚ), none), [((1 : ℚ), (2 : ℚ))])],
   [List.replicate 9 0], 0⟩

/-- Default feature entry for out-of-range `getD` lookups. -/
def dfltFeat : (ℚ × Option ℚ) × List (ℚ × ℚ) := ((0, none), [])

/-! Support lemmas for the `cwt_ricker` claims. -/

theorem pyint_le_self {x : ℚ} (h : 0 ≤ x) : (pyint x : ℚ) ≤ x := by
  simp only [pyint, if_pos h]
  exact Int.floor_le x

theorem le_of_two_le_pyint {x : ℚ} (h : 2 ≤ pyint x) : (2 : ℚ) ≤ x := by
  by_cases h0 : 0 ≤ x
  · calc (2 : ℚ) ≤ (pyint x : ℚ) := by exact_mod_cast h
      _ ≤ x := pyint_le_self h0
  · exfalso
    simp only [pyint, if_neg h0] at h
    have : (⌈x⌉ : ℤ) ≤ 0 :=
      Int.ceil_le.mpr (by exact_mod_cast le_of_not_le h0)
    omega

theorem rickerKernel_length (vals : ℤ → ℚ → ℕ → ℚ) (width : ℚ) (n : ℕ) :
    (rickerKernel vals width n).length = (rickerLen width n).toNat := by
  simp [rickerKernel]

theorem rickerKernel_ne_nil_iff (vals : ℤ → ℚ → ℕ → ℚ) (width : ℚ) (n : ℕ) :
    (rickerKernel vals width n) ≠ [] ↔ 2 ≤ pyint (min (10 * width) (n : ℚ)) := by
  rw [← List.length_pos_iff_ne_nil, rickerKernel_length]
  have hfd : Int.fdiv (pyint (min (10 * width) (n : ℚ))) 2 =
      pyint (min (10 * width) (n : ℚ)) / 2 :=
    Int.fdiv_eq_ediv _ (by norm_num)
  constructor
  · intro h
    have h1 : 1 ≤ rickerLen width n := by omega
    simp only [rickerLen, hfd] at h1
    omega
  · intro h
    have : 1 ≤ rickerLen width n := by
      simp only [rickerLen, hfd]
      omega
    omega

theorem fullConv_length (a v : List ℚ) :
    (fullConv a v).length = a.length + v.length - 1 := by
  simp [fullConv]

theorem convolveSame_length {a v out : List ℚ} (h : convolveSame a v = some out) :
    out.length = max a.length v.length := by
  simp only [convolveSame] at h
  split at h
  · exact absurd h (by simp)
  · rename_i hne
    rw [Option.some_inj] at h
    subst h
    push_neg at hne
    obtain ⟨ha, hv⟩ := hne
    have ha' : 1 ≤ a.length := List.length_pos.mpr (by simpa using ha)
    have hv' : 1 ≤ v.length := List.length_pos.mpr (by simpa using hv)
    rw [List.length_take, List.length_drop, fullConv_length]
    omega

theorem convolveSame_isSome_iff (a v : List ℚ) :
    (convolveSame a v).isSome = (!a.isEmpty && !v.isEmpty) := by
  simp only [convolveSame]
  by_cases h : a.isEmpty ∨ v.isEmpty
  · rcases h with h | h <;> simp [h]
  · push_neg at h
    simp [h.1, h.2]

/-- Data of length `n ≥ 2` admits a kernel for width `w` iff
`int(min(10w, n)) ≥ 2`; the convolution then succeeds. -/
theorem cwt_row_isSome_iff (vals : ℤ → ℚ → ℕ → ℚ) (data : List ℚ) (w : ℚ) :
    (convolveSame data (rickerKernel vals w data.length)).isSome =
      decide (2 ≤ pyint (min (10 * w) (data.length : ℚ))) := by
  rw [convolveSame_isSome_iff]
  by_cases hk : 2 ≤ pyint (min (10 * w) (data.length : ℚ))
  · have hker : rickerKernel vals w data.length ≠ [] :=
      (rickerKernel_ne_nil_iff vals w data.length).mpr hk
    have hdata : data ≠ [] := by
      intro hcon
      subst hcon
      have : (2 : ℚ) ≤ min (10 * w) ((0 : ℕ) : ℚ) := le_of_two_le_pyint hk
      have : (2 : ℚ) ≤ 0 := le_trans this (by simp)
      norm_num at this
    simp [hk, List.isEmpty_iff, hdata, hker]
  · have hker : rickerKernel vals w data.length = [] := by
      by_contra hne
      exact hk ((rickerKernel_ne_nil_iff vals w data.length).mp hne)
    simp [hk, List.isEmpty_iff, hker]

theorem pyint_le_of_le_natCast {x : ℚ} {n : ℕ} (h : x ≤ (n : ℚ)) : pyint x ≤ (n : ℤ) := by
  by_cases h0 : 0 ≤ x
  · simp only [pyint, if_pos h0]
    have : (⌊x⌋ : ℚ) ≤ (n : ℚ) := le_trans (Int.floor_le x) h
    exact_mod_cast this
  · simp only [pyint, if_neg h0]
    have : (⌈x⌉ : ℤ) ≤ 0 := Int.ceil_le.mpr (by exact_mod_cast le_of_not_le h0)
    omega

theorem rickerLen_toNat_le (w : ℚ) (n : ℕ) : (rickerLen w n).toNat ≤ n := by
  have hm : pyint (min (10 * w) (n : ℚ)) ≤ (n : ℤ) :=
    pyint_le_of_le_natCast (min_le_right _ _)
  have hfd : Int.fdiv (pyint (min (10 * w) (n : ℚ))) 2 =
      pyint (min (10 * w) (n : ℚ)) / 2 :=
    Int.fdiv_eq_ediv _ (by norm_num)
  simp only [rickerLen, hfd]
  omega

theorem fullConv_zero_left (n : ℕ) (v : List ℚ) :
    ∀ x ∈ fullConv (List.replicate n 0) v, x = 0 := by
  intro x hx
  simp only [fullConv, List.mem_map, List.mem_range] at hx
  obtain ⟨k, _, hk⟩ := hx
  rw [← hk]
  apply List.sum_eq_zero
  intro y hy
  simp only [List.mem_map, List.mem_range] at hy
  obtain ⟨i, _, hi⟩ := hy
  rw [← hi]
  split
  · rcases lt_or_ge i n with h | h
    · rw [List.getD_eq_getElem _ _ (by simpa using h)]
      simp
    · rw [List.getD_eq_default _ _ (by simpa using h)]
      simp
  · rfl

theorem convolveSame_zero_left {n : ℕ} {v out : List ℚ}
    (h : convolveSame (List.replicate n 0) v = some out) : ∀ x ∈ out, x = 0 := by
  simp only [convolveSame] at h
  split at h
  · exact absurd h (by simp)
  · rw [Option.some_inj] at h
    subst h
    intro x hx
    exact fullConv_zero_left n v x (List.mem_of_mem_drop (List.mem_of_mem_take hx))

theorem diffsQ_length (l : List ℚ) : (diffsQ l).length = l.length - 1 := by
  simp only [diffsQ, List.length_zipWith, List.length_tail]
  omega

theorem chain'_iff_diffsQ (s : ℚ) : ∀ l : List ℚ,
    List.Chain' (fun a b => s ≤ b - a) l ↔ ∀ d ∈ diffsQ l, s ≤ d
  | [] => by simp [diffsQ]
  | [a] => by simp [diffsQ]
  | a :: b :: t => by
    rw [List.chain'_cons]
    have ih := chain'_iff_diffsQ s (b :: t)
    simp only [diffsQ, List.tail_cons, List.zipWith_cons_cons, List.mem_cons] at ih ⊢
    constructor
    · rintro ⟨h1, h2⟩ d (rfl | hd)
      · exact h1
      · exact ih.mp h2 d hd
    · intro h
      exact ⟨h _ (Or.inl rfl), ih.mpr (fun d hd => h d (Or.inr hd))⟩

theorem firstBadIdx_none_iff (s : ℚ) (l : List ℚ) :
    firstBadIdx s l = none ↔ List.Chain' (fun a b => s ≤ b - a) l := by
  rw [firstBadIdx, List.findIdx?_eq_none_iff, chain'_iff_diffsQ]
  constructor
  · intro h d hd
    have := h d hd
    simp only [decide_eq_false_iff_not, not_lt] at this
    exact this
  · intro h d hd
    simp only [decide_eq_false_iff_not, not_lt]
    exact h d hd

theorem firstBadIdx_lt {s : ℚ} {l : List ℚ} {i : ℕ}
    (h : firstBadIdx s l = some i) : i + 1 < l.length := by
  rw [firstBadIdx, List.findIdx?_eq_some_iff_findIdx_eq] at h
  have := h.1
  rw [diffsQ_length] at this
  omega

theorem minSepStep_length (pin : List ℚ → List ℚ) {i : ℕ} {l : List ℚ}
    (h : i + 1 < l.length) : (minSepStep pin i l).length < l.length := by
  simp only [minSepStep]
  split
  · rw [List.length_append, List.length_take, List.length_drop]
    omega
  · rw [List.length_append, List.length_take, List.length_cons, List.length_drop]
    omega

theorem minSepLoopC_chain' (pin : List ℚ → List ℚ) (s : ℚ) :
    ∀ fuel l, l.length ≤ fuel →
      List.Chain' (fun a b => s ≤ b - a) (minSepLoopC pin s fuel l).1 := by
  intro fuel
  induction fuel with
  | zero =>
    intro l hl
    have : l = [] := List.eq_nil_of_length_eq_zero (by omega)
    subst this
    simp [minSepLoopC]
  | succ f ih =>
    intro l hl
    simp only [minSepLoopC]
    rcases hbad : firstBadIdx s l with _ | i
    · exact (firstBadIdx_none_iff s l).mp hbad
    · have hlen := firstBadIdx_lt hbad
      have hstep := minSepStep_length pin hlen
      exact ih (minSepStep pin i l) (by omega)

theorem minSepLoop_chain' (pin : List ℚ → List ℚ) (s : ℚ) (l : List ℚ) :
    List.Chain' (fun a b => s ≤ b - a) (minSepLoop pin s l) :=
  minSepLoopC_chain' pin s l.length l le_rfl

theorem minSepLoopC_congr (pin : List ℚ → List ℚ) (s : ℚ) :
    ∀ fuel1 fuel2 l, l.length ≤ fuel1 → l.length ≤ fuel2 →
      (minSepLoopC pin s fuel1 l).1 = (minSepLoopC pin s fuel2 l).1 := by
  intro fuel1
  induction fuel1 with
  | zero =>
    intro fuel2 l h1 _
    have : l = [] := List.eq_nil_of_length_eq_zero (by omega)
    subst this
    have hnone : firstBadIdx s [] = none := by simp [firstBadIdx, diffsQ]
    cases fuel2 <;> simp [minSepLoopC, hnone]
  | succ f ih =>
    intro fuel2 l h1 h2
    rcases hbad : firstBadIdx s l with _ | i
    · cases fuel2 <;> simp [minSepLoopC, hbad]
    · have hlen := firstBadIdx_lt hbad
      rcases fuel2 with _ | f2
      · omega
      · have hstep := minSepStep_length pin hlen
        simp only [minSepLoopC, hbad]
        exact ih f2 (minSepStep pin i l) (by omega) (by omega)

theorem minSepLoop_unfold (pin : List ℚ → List ℚ) (s : ℚ) (l : List ℚ) :
    minSepLoop pin s l =
      match firstBadIdx s l with
      | none => l
      | some i => minSepLoop pin s (minSepStep pin i l) := by
  rcases hbad : firstBadIdx s l with _ | i
  · rcases hl : l.length with _ | k
    · simp [minSepLoop, hl, minSepLoopC]
    · simp [minSepLoop, hl, minSepLoopC, hbad]
  · have hlen := firstBadIdx_lt hbad
    rcases hl : l.length with _ | k
    · omega
    · have hstep' : (minSepStep pin i l).length < l.length := minSepStep_length pin hlen
      simp only [minSepLoop, hl, minSepLoopC, hbad]
      exact minSepLoopC_congr pin s k (minSepStep pin i l).length (minSepStep pin i l)
        (by omega) le_rfl

end Tracing

namespace Tracing

unseal Rat.add Rat.mul Rat.sub Rat.inv Nat.gcd in
/-- Claim C8 (counterexample): the claim states that `cwt_ricker` completes for
every input of length `N ≥ 1` and every positive width, with `N < 1` as the
only failure mode.  But for `data = [1]` (length 1) and the positive width 1
the kernel length is `int(min(10, 1)) // 2 * 2 - 1 = -1`, so `scipy.ricker`
returns an empty kernel and `np.convolve` raises `ValueError`: the call does
not complete (the model returns `none`).  The ricker-value oracle is
irrelevant because the kernel is empty. -/
theorem C8_cex_cwt_ricker_fails_on_length_one :
    cwt_ricker (fun _ _ _ => 0) [1] [1] = none := by decide

/-- Claim C8 (amended): `cwt_ricker` completes exactly when every requested
width `w` satisfies `int(min(10*w, N)) ≥ 2` (so the kernel has at least one
point); in particular it also fails for `N = 1` and for widths below 0.2,
not only for `N < 1`.  It is a deterministic pure function of its inputs
(in the model: a function).  Quantified over every ricker-value oracle,
every data array and every width sequence. -/
theorem C8_cwt_ricker_completes_iff (vals : ℤ → ℚ → ℕ → ℚ) (data : List ℚ)
    (widths : List ℚ) :
    (cwt_ricker vals data widths).isSome =
      widths.all (fun w => decide (2 ≤ pyint (min (10 * w) (data.length : ℚ)))) := by
  induction widths with
  | nil => simp [cwt_ricker]
  | cons w ws ih =>
    simp only [cwt_ricker, List.all_cons]
    rcases hrow : convolveSame data (rickerKernel vals w data.length) with _ | r
    · have := cwt_row_isSome_iff vals data w
      rw [hrow] at this
      simp only [Option.isSome_none] at this
      simp [← this]
    · have := cwt_row_isSome_iff vals data w
      rw [hrow] at this
      simp only [Option.isSome_some] at this
      rcases hrest : cwt_ricker vals data ws with _ | rs
      · rw [hrest] at ih
        simp only [Option.isSome_none] at ih
        simp [← this, ← ih]
      · rw [hrest] at ih
        simp only [Option.isSome_some] at ih
        simp [← this, ← ih]

/-- Claim C9: whenever `cwt_ricker` completes, it returns one row per
requested width and every row has the length of the input data
("same"-mode convolution); and on an all-zero signal every returned row is
all-zero.  Quantified over every ricker-value oracle (the zero result needs
nothing about the wavelet values: convolving a zero signal gives zero). -/
theorem C9_cwt_ricker_zero_and_length (vals : ℤ → ℚ → ℕ → ℚ) (data : List ℚ)
    (widths : List ℚ) (n : ℕ) :
    ((cwt_ricker vals data widths).elim True
      (fun rows => rows.length = widths.length ∧
        rows.Forall (fun row => row.length = data.length))) ∧
    ((cwt_ricker vals (List.replicate n 0) widths).elim True
      (fun rows => rows.Forall (fun row => row.Forall (fun x => x = 0)))) := by
  constructor
  · induction widths with
    | nil => simp [cwt_ricker]
    | cons w ws ih =>
      simp only [cwt_ricker]
      rcases hrow : convolveSame data (rickerKernel vals w data.length) with _ | r
      · simp
      · rcases hrest : cwt_ricker vals data ws with _ | rs
        · simp
        · rw [hrest] at ih
          simp only [Option.elim_some] at ih ⊢
          refine ⟨by simp [ih.1], ?_⟩
          rw [List.forall_iff_forall_mem]
          intro row hrow'
          rcases List.mem_cons.mp hrow' with h | h
          · subst h
            have hlen := convolveSame_length hrow
            have hvlen := rickerKernel_length vals w data.length
            have hle := rickerLen_toNat_le w data.length
            omega
          · exact (List.forall_iff_forall_mem.mp ih.2) row h
  · induction widths with
    | nil => simp [cwt_ricker]
    | cons w ws ih =>
      simp only [cwt_ricker]
      rcases hrow : convolveSame (List.replicate n 0)
          (rickerKernel vals w (List.replicate n (0 : ℚ)).length) with _ | r
      · simp
      · rcases hrest : cwt_ricker vals (List.replicate n 0) ws with _ | rs
        · simp
        · rw [hrest] at ih
          simp only [Option.elim_some] at ih ⊢
          rw [List.forall_iff_forall_mem]
          intro row hrow'
          rcases List.mem_cons.mp hrow' with h | h
          · subst h
            rw [List.forall_iff_forall_mem]
            exact convolveSame_zero_left hrow
          · exact (List.forall_iff_forall_mem.mp ih) row h

/-! ### Claims about `reject_bad_peaks` and the `min_sep` loop -/

theorem sortBySnr_sorted (l : List (ℚ × ℚ)) : List.Pairwise snrLe (sortBySnr l) :=
  List.sorted_insertionSort snrLe l

theorem sortBySnr_perm (l : List (ℚ × ℚ)) : (sortBySnr l).Perm l :=
  List.perm_insertionSort snrLe l

theorem rbpDropAux_sublist : ∀ (fuel : ℕ) (l : List (ℚ × ℚ)), (rbpDropAux fuel l).Sublist l := by
  intro fuel
  induction fuel with
  | zero => intro l; exact List.Sublist.refl l
  | succ f ih =>
    intro l
    simp only [rbpDropAux]
    split
    · exact (ih l.dropLast).trans (List.dropLast_sublist l)
    · exact List.Sublist.refl l

theorem reject_bad_peaksList_sublist (l : List (ℚ × ℚ)) :
    (reject_bad_peaksList l).Sublist (sortBySnr l) :=
  rbpDropAux_sublist _ _

theorem reject_bad_peaksList_mem {l : List (ℚ × ℚ)} {x : ℚ × ℚ}
    (h : x ∈ reject_bad_peaksList l) : x ∈ l :=
  (sortBySnr_perm l).mem_iff.mp ((reject_bad_peaksList_sublist l).subset h)

theorem reject_bad_peaksList_sorted (l : List (ℚ × ℚ)) :
    List.Pairwise snrLe (reject_bad_peaksList l) :=
  List.Pairwise.sublist (reject_bad_peaksList_sublist l) (sortBySnr_sorted l)

/-- Claim C10: `reject_bad_peaks` mutates its argument in place — it returns
the same list reference it was given, leaves every other list in the store
untouched, and after the call the referenced list is sorted ascending by SNR
with zero or more of its (brightest) elements deleted: the new contents are a
sublist of the stable SNR-sort of the old contents, which is itself a
permutation of the old contents (so the caller's list is reordered and
possibly shortened). -/
theorem C10_reject_bad_peaks_in_place (r : ℕ) (σ : PyStore) (hr : r < σ.length) :
    (reject_bad_peaks r σ).1 = r ∧
    (∀ j, j ≠ r → ((reject_bad_peaks r σ).2.getD j []) = σ.getD j []) ∧
    List.Chain' snrLe ((reject_bad_peaks r σ).2.getD r []) ∧
    ((reject_bad_peaks r σ).2.getD r []).Sublist (sortBySnr (σ.getD r [])) ∧
    (sortBySnr (σ.getD r [])).Perm (σ.getD r []) := by
  have hset : ((reject_bad_peaks r σ).2.getD r []) =
      reject_bad_peaksList (σ.getD r []) := by
    simp only [reject_bad_peaks, List.getD_eq_getElem?_getD]
    rw [List.getElem?_set_self (by simpa using hr)]
    rfl
  refine ⟨rfl, ?_, ?_, ?_, sortBySnr_perm _⟩
  · intro j hj
    simp only [reject_bad_peaks, List.getD_eq_getElem?_getD]
    rw [List.getElem?_set_ne (Ne.symm hj)]
  · rw [hset]
    exact (reject_bad_peaksList_sorted _).chain'
  · rw [hset]
    exact reject_bad_peaksList_sublist _

unseal Rat.add Rat.mul Rat.sub Rat.inv Nat.gcd in
/-- Claim C10 (witness): a concrete store with two lists; the call on
reference 0 returns reference 0, does not touch the list at reference 1, and
leaves a sorted sublist at reference 0. -/
theorem C10_witness :
    (reject_bad_peaks 0 [[(1, 5), (2, 1)], [(3, 3)]]).1 = 0 ∧
    (reject_bad_peaks 0 [[(1, 5), (2, 1)], [(3, 3)]]).2.getD 1 [] = [(3, 3)] ∧
    List.Chain' snrLe ((reject_bad_peaks 0 [[(1, 5), (2, 1)], [(3, 3)]]).2.getD 0 []) := by
  have h := C10_reject_bad_peaks_in_place 0 [[(1, 5), (2, 1)], [(3, 3)]] (by norm_num)
  refine ⟨h.1, ?_, h.2.2.1⟩
  rw [h.2.1 1 (by norm_num)]
  rfl

unseal Rat.add Rat.mul Rat.sub Rat.inv Nat.gcd in
/-- Claim C6 (counterexample): the claim says each iteration of the cleanup
loop selects the CLOSEST under-separated adjacent pair (smallest gap below
`min_sep`).  The code selects `np.argmax(diffs < min_sep)`, the FIRST
under-separated pair.  For `peaks = [0, 0.9, 1.5]` and `min_sep = 1` the gaps
are `[0.9, 0.6]`: both are under-separated and the smallest gap (0.6) is at
index 1, yet the code selects index 0 (gap 0.9).  With the re-pinpointing
oracle returning the pair unchanged, the code loop produces `[0.45, 1.5]`
while the claimed smallest-gap selection produces `[0, 1.2]`. -/
theorem C6_cex_min_sep_selects_first_not_closest :
    firstBadIdx 1 [0, 9/10, 3/2] = some 0 ∧
    diffsQ [0, 9/10, 3/2] = [9/10, 3/5] ∧ (3/5 : ℚ) < 9/10 ∧
    minSepLoop (fun l => l) 1 [0, 9/10, 3/2] = [9/20, 3/2] ∧
    spec_minSepLoop (fun l => l) 1 [0, 9/10, 3/2] = [0, 6/5] := by decide

/-- Claim C6 (amended): each iteration of the cleanup loop selects the FIRST
(lowest-index) under-separated adjacent pair — `np.argmax(diffs < min_sep)` —
re-pinpoints just that pair, and replaces it with the mean of the
re-pinpointed positions (or drops the pair entirely when re-pinpointing
returns nothing, `minSepStep`), repeating until every adjacent gap is at
least `min_sep`; this holds for every re-pinpointing behaviour `pin`. -/
theorem C6_min_sep_loop_first_under_separated_pair (pin : List ℚ → List ℚ) (s : ℚ)
    (l : List ℚ) :
    (minSepLoop pin s l =
      match firstBadIdx s l with
      | none => l
      | some i => minSepLoop pin s (minSepStep pin i l)) ∧
    List.Chain' (fun a b => s ≤ b - a) (minSepLoop pin s l) :=
  ⟨minSepLoop_unfold pin s l, minSepLoop_chain' pin s l⟩

/-! ### Claims C1 and C7 about `find_peaks` -/

theorem gap_of_mem_of_lt {s : ℚ} {L : List ℚ}
    (hL : List.Pairwise (fun a b => s ≤ b - a) L) {a b : ℚ}
    (ha : a ∈ L) (hb : b ∈ L) (hab : a < b) : s ≤ b - a := by
  induction L with
  | nil => cases ha
  | cons x t ih =>
    rw [List.pairwise_cons] at hL
    rcases List.mem_cons.mp ha with rfl | ha' <;> rcases List.mem_cons.mp hb with rfl | hb'
    · exact absurd hab (lt_irrefl _)
    · exact hL.1 b hb'
    · have h2 := hL.1 a ha'
      linarith
    · exact ih hL.2 ha' hb'

theorem chain'_gap_pairwise {s : ℚ} (hs : 0 ≤ s) {L : List ℚ}
    (h : List.Chain' (fun a b => s ≤ b - a) L) :
    List.Pairwise (fun a b => s ≤ b - a) L := by
  haveI : IsTrans ℚ (fun a b => s ≤ b - a) := ⟨fun a b c h1 h2 => by
    have h1' : s ≤ b - a := h1
    have h2' : s ≤ c - b := h2
    show s ≤ c - a
    linarith⟩
  exact List.chain'_iff_pairwise.mp h

theorem find_peaks_pairs_mem {A : FPArgs} {p : ℚ × ℚ} (hp : p ∈ find_peaks_pairs A) :
    p.1 ∈ find_peaks_cleaned A ∧ p.2 = A.snrF (pyint (p.1 + 1/2)) ∧ A.min_snr < p.2 := by
  simp only [find_peaks_pairs, List.mem_map, List.mem_filter] at hp
  obtain ⟨x, ⟨hx1, hx2⟩, rfl⟩ := hp
  simp only [decide_eq_true_eq] at hx2
  exact ⟨hx1, rfl, hx2⟩

theorem find_peaks_good_mem {A : FPArgs} {p : ℚ × ℚ} (hp : p ∈ find_peaks_good A) :
    p ∈ find_peaks_pairs A := by
  simp only [find_peaks_good] at hp
  split at hp
  · exact reject_bad_peaksList_mem hp
  · exact hp

theorem find_peaks_cleaned_chain' (A : FPArgs) :
    List.Chain' (fun a b => A.min_sep ≤ b - a) (find_peaks_cleaned A) :=
  minSepLoop_chain' _ _ _

theorem find_peaks_pairs_nodup {A : FPArgs} (hs : 0 < A.min_sep) :
    (find_peaks_pairs A).Nodup := by
  have hpw := chain'_gap_pairwise (le_of_lt hs) (find_peaks_cleaned_chain' A)
  have hnd : (find_peaks_cleaned A).Nodup :=
    hpw.imp (fun h => ne_of_lt (by linarith))
  have hndf := hnd.filter
    (fun p => decide (A.min_snr < A.snrF (pyint (p + 1/2))))
  exact List.Nodup.map (fun a b hab => congrArg Prod.fst hab) hndf

theorem find_peaks_good_nodup {A : FPArgs} (hs : 0 < A.min_sep) :
    (find_peaks_good A).Nodup := by
  have hp := find_peaks_pairs_nodup hs
  simp only [find_peaks_good]
  split
  · exact List.Nodup.sublist (reject_bad_peaksList_sublist _)
      (((sortBySnr_perm _).nodup_iff).mpr hp)
  · exact hp

/-- Claim C1: for every input signal and parameter choice (modelled: for every
ridge-candidate list, SNR array, mask, pinpointing behaviour and parameter
values), the array returned by `find_peaks` is sorted ascending by peak
location, every adjacent pair of returned locations is separated by at least
`min_sep` (exactly, since the cleanup loop only exits once all gaps are at
least `min_sep`), and every returned SNR is strictly greater than
`min_snr`. -/
theorem C1_find_peaks_sorted_separated_snr (A : FPArgs) :
    List.Chain' (fun a b => a ≤ b) (find_peaks A).1 ∧
    List.Chain' (fun a b => A.min_sep ≤ b - a) (find_peaks A).1 ∧
    (find_peaks A).2.Forall (fun x => A.min_snr < x) := by
  have hsorted : List.Pairwise pairLe ((find_peaks_good A).insertionSort pairLe) :=
    List.sorted_insertionSort pairLe _
  have hperm := List.perm_insertionSort pairLe (find_peaks_good A)
  have hmem : ∀ p ∈ (find_peaks_good A).insertionSort pairLe,
      p.1 ∈ find_peaks_cleaned A ∧ p.2 = A.snrF (pyint (p.1 + 1/2)) ∧ A.min_snr < p.2 :=
    fun p hp => find_peaks_pairs_mem (find_peaks_good_mem (hperm.subset hp))
  have hchain1 : List.Chain' (fun p q : ℚ × ℚ => p.1 ≤ q.1)
      ((find_peaks_good A).insertionSort pairLe) := by
    refine hsorted.chain'.imp ?_
    intro p q hpq
    rcases hpq with h | ⟨h, _⟩
    · exact le_of_lt h
    · exact le_of_eq h
  refine ⟨?_, ?_, ?_⟩
  · exact (List.chain'_map Prod.fst).mpr hchain1
  · by_cases hs : 0 < A.min_sep
    · have hnd : ((find_peaks_good A).insertionSort pairLe).Nodup :=
        (hperm.nodup_iff).mpr (find_peaks_good_nodup hs)
      have hpw2 : List.Pairwise
          (fun p q : ℚ × ℚ => pairLe p q ∧ p ≠ q)
          ((find_peaks_good A).insertionSort pairLe) := hsorted.and hnd
      have hgap : List.Pairwise
          (fun p q : ℚ × ℚ => A.min_sep ≤ q.1 - p.1)
          ((find_peaks_good A).insertionSort pairLe) := by
        refine hpw2.imp_of_mem ?_
        intro p q hp hq hpq
        obtain ⟨hple, hpne⟩ := hpq
        obtain ⟨hp1, hp2, _⟩ := hmem p hp
        obtain ⟨hq1, hq2, _⟩ := hmem q hq
        have hlt : p.1 < q.1 := by
          rcases hple with h | ⟨h, _⟩
          · exact h
          · exfalso
            apply hpne
            have : p.2 = q.2 := by rw [hp2, hq2, h]
            exact Prod.ext h this
        exact gap_of_mem_of_lt (chain'_gap_pairwise (le_of_lt hs)
          (find_peaks_cleaned_chain' A)) hp1 hq1 hlt
      exact ((List.pairwise_map).mpr hgap).chain'
    · push_neg at hs
      refine ((List.chain'_map Prod.fst).mpr ?_)
      refine hchain1.imp ?_
      intro p q h
      linarith
  · rw [List.forall_iff_forall_mem]
    intro x hx
    simp only [find_peaks, List.mem_map] at hx
    obtain ⟨p, hp, rfl⟩ := hx
    exact (hmem p hp).2.2

/-- Claim C7: `find_peaks` always returns a well-formed two-row value (the
two rows have equal length), and whenever no peaks survive the filtering
stages (the `good_peaks` list is empty) it returns the empty 2×0 result
`([], [])` rather than raising. -/
theorem C7_find_peaks_empty_is_two_empty_rows (A : FPArgs) :
    (find_peaks A).1.length = (find_peaks A).2.length ∧
    (find_peaks_good A = [] → find_peaks A = ([], [])) := by
  constructor
  · simp [find_peaks]
  · intro h
    simp [find_peaks, h]

/-- Claim C7 (witness): a concrete run with no surviving peaks returns the
empty two-row value. -/
theorem C7_witness : find_peaks fpEmptyArgs = ([], []) :=
  (C7_find_peaks_empty_is_two_empty_rows fpEmptyArgs).2 (by rfl)

/-! ### Claim C2 about `pinpoint_peaks` -/

theorem centroidLoop_some_range {I1 I2 : ℚ → ℚ → ℚ} {hw npts : ℚ} :
    ∀ {fuel : ℕ} {xc dxlast : ℚ} {dxcheck : ℕ} {v : ℚ},
      (centroidLoop I1 I2 hw npts fuel xc dxlast dxcheck).1 = some v →
      hw ≤ v ∧ v ≤ npts - hw := by
  intro fuel
  induction fuel with
  | zero =>
    intro xc dxlast dxcheck v h
    simp [centroidLoop] at h
  | succ f ih =>
    intro xc dxlast dxcheck v h
    simp only [centroidLoop] at h
    split at h
    · simp at h
    · split at h
      · simp at h
      · rename_i hbounds
        push_neg at hbounds
        split at h
        · simp only [Option.some_inj] at h
          subst h
          exact ⟨le_of_not_lt (fun hc => absurd hbounds.1 (by simp [hc])), hbounds.2⟩
        · split at h
          · split at h
            · simp at h
            · exact ih h
          · split at h
            · exact ih h
            · exact ih h

theorem processPeak_some_range {I1 I2 : ℚ → ℚ → ℚ} {md : List ℚ} {npts hw : ℕ}
    {p x : ℚ} (h : processPeak I1 I2 md npts hw p = some (some x)) :
    (hw : ℚ) ≤ x ∧ x ≤ (npts : ℚ) - (hw : ℚ) := by
  simp only [processPeak] at h
  split at h
  · exact absurd h (by simp)
  · split at h
    · simp at h
    · simp only [Option.some_inj] at h
      exact centroidLoop_some_range h

theorem pinpointFold_spec {I1 I2 : ℚ → ℚ → ℚ} {md : List ℚ} {npts hw : ℕ} :
    ∀ {peaks out : List ℚ}, pinpointFold I1 I2 md npts hw peaks = some out →
      out.length ≤ peaks.length ∧
      out.Forall (fun x => (hw : ℚ) ≤ x ∧ x ≤ (npts : ℚ) - (hw : ℚ)) := by
  intro peaks
  induction peaks with
  | nil =>
    intro out h
    simp only [pinpointFold, Option.some_inj] at h
    subst h
    simp
  | cons p t ih =>
    intro out h
    simp only [pinpointFold] at h
    rcases hp : processPeak I1 I2 md npts hw p with _ | x
    · rw [hp] at h
      simp at h
    · rcases x with _ | x
      · rw [hp] at h
        have := ih h
        exact ⟨le_trans this.1 (by simp), this.2⟩
      · rw [hp] at h
        rcases hrest : pinpointFold I1 I2 md npts hw t with _ | rest
        · rw [hrest] at h
          simp at h
        · rw [hrest] at h
          have hout : x :: rest = out := by simpa using h
          subst hout
          have := ih hrest
          refine ⟨by simpa using this.1, ?_⟩
          rw [List.forall_cons]
          exact ⟨processPeak_some_range hp, this.2⟩

/-- Claim C2 (amended): for every call (and every spline-integral oracle),
`pinpoint_peaks` returns at most as many locations as it was given, and every
returned location lies in the CLOSED interval
`[halfwidth, N - halfwidth]` (with `halfwidth = max(halfwidth, 2)` and
`N = len(data)`): the bound check of the source is
`xc < halfwidth or xc > npts - halfwidth`, so `N - halfwidth` — not the
claimed `N - 1 - halfwidth` — is the true upper bound, and both endpoints are
attainable.  When the call raises (far-out-of-range peak) the convention
`getD []` makes both statements trivially true of the empty result. -/
theorem C2_pinpoint_peaks_count_and_range (splO1 splO2 : List ℚ → ℚ → ℚ → ℚ)
    (data : List ℚ) (mask : Option (List Bool)) (peaks : List ℚ)
    (halfwidth : ℕ) (threshold : ℚ) :
    ((pinpoint_peaks splO1 splO2 data mask peaks halfwidth threshold).getD []).length
        ≤ peaks.length ∧
    ((pinpoint_peaks splO1 splO2 data mask peaks halfwidth threshold).getD []).Forall
      (fun x => ((max halfwidth 2 : ℕ) : ℚ) ≤ x ∧
                x ≤ (data.length : ℚ) - ((max halfwidth 2 : ℕ) : ℚ)) := by
  simp only [pinpoint_peaks]
  split
  · simp
  · rcases hres : pinpointFold (splO1 (pinpointMaskedData data mask threshold))
        (splO2 (pinpointMaskedData data mask threshold))
        (pinpointMaskedData data mask threshold) data.length (max halfwidth 2) peaks
      with _ | out
    · simp
    · simpa using pinpointFold_spec hres

unseal Rat.add Rat.mul Rat.sub Rat.inv Nat.gcd in
/-- Claim C2 (counterexample): the claim asserts every returned location lies
strictly within `[halfwidth, N-1-halfwidth]`.  On the 9-sample array
`[0,0,0,0,0,0,1,2,1]` (a symmetric peak at pixel 7) with `halfwidth = 2` and
no mask, the centroid converges immediately (`dx = 0`) at 7 and the source's
bound check `xc > npts - halfwidth` (7 > 9 - 2) does not fire, so the call
returns location 7 — beyond the claimed bound `N - 1 - halfwidth = 6`.  The
spline-integral oracles are the integrals of the symmetric triangular bump
centred at 7, matching the symmetric data. -/
theorem C2_cex_pinpoint_returns_beyond_claimed_bound :
    pinpoint_peaks (fun _ x1 x2 => tentI 7 x2 - tentI 7 x1)
        (fun _ x1 x2 => tentXI 7 x2 - tentXI 7 x1)
        [0, 0, 0, 0, 0, 0, 1, 2, 1] none [7] 2 0 = some [7] ∧
    ((9 : ℚ) - 1 - 2 < 7) := by decide

/-! ### Claim C4 about the `optimal_extraction` loop control -/

theorem oeLoopCount_spec {σ : Type} (step : σ → σ) (um : σ → List Bool)
    (m : ℕ) (s0 : σ) (init : List Bool) :
    ∀ fuel j, j + fuel = m + 1 → 1 ≤ fuel →
      ∃ n, oeLoopCount step um (some m) fuel (step^[j] s0)
              (oeUnmaskSeq step um init s0 j) j = some n ∧
        j < n ∧ n ≤ m + 1 ∧
        (oeUnmaskSeq step um init s0 n = oeUnmaskSeq step um init s0 (n - 1) ∨ n = m + 1) ∧
        ∀ k, j < k → k < n →
          oeUnmaskSeq step um init s0 k ≠ oeUnmaskSeq step um init s0 (k - 1) := by
  intro fuel
  induction fuel with
  | zero =>
    intro j h1 h2
    omega
  | succ f ih =>
    intro j h1 _
    have hs' : step (step^[j] s0) = step^[j + 1] s0 :=
      (Function.iterate_succ_apply' step j s0).symm
    have huseq : oeUnmaskSeq step um init s0 (j + 1) = um (step^[j + 1] s0) := by
      simp [oeUnmaskSeq]
    by_cases hc : (um (step^[j + 1] s0) == oeUnmaskSeq step um init s0 j
        || decide (m < j + 1)) = true
    · refine ⟨j + 1, ?_, by omega, by omega, ?_, by omega⟩
      · simp only [oeLoopCount, hs', hc]
        simp
      · rcases Bool.or_eq_true_iff.mp hc with h | h
        · left
          rw [huseq, Nat.add_sub_cancel]
          exact beq_iff_eq.mp h
        · right
          have := of_decide_eq_true h
          omega
    · have hj1 : j + 1 ≤ m := by
        rcases Nat.lt_or_ge m (j + 1) with h | h
        · exfalso
          apply hc
          simp [h]
        · exact h
      have hf : 1 ≤ f := by omega
      obtain ⟨n, heq, hn1, hn2, hn3, hn4⟩ := ih (j + 1) (by omega) hf
      refine ⟨n, ?_, by omega, hn2, hn3, ?_⟩
      · simp only [oeLoopCount, hs', hc]
        rw [huseq] at heq
        simpa using heq
      · intro k hk1 hk2
        rcases Nat.eq_or_lt_of_le hk1 with hk | hk
        · subst hk
          rw [Nat.succ_sub_one, Nat.succ_eq_add_one, huseq]
          intro hcon
          apply hc
          rw [Bool.or_eq_true_iff]
          left
          exact beq_iff_eq.mpr hcon
        · exact hn4 k hk hk2

/-- Claim C4 (amended): with `max_iters` set to `m`, the loop of
`optimal_extraction` always terminates and executes its body `n` times where
`1 ≤ n ≤ m + 1` — i.e. at most `max_iters + 1` times, not `max_iters` —
stopping at the FIRST body after which either the unmask is unchanged from
the previous body or the break test `iter > max_iters` fires (source:
lines 240-244, `iter > max_iters` only triggers once `iter = m + 1`); there
is no numerical tolerance criterion: quantified over every body behaviour
`step`/`um`, so only the mask comparison and the counter govern exit. -/
theorem C4_optimal_extraction_loop_bound {σ : Type} (step : σ → σ)
    (um : σ → List Bool) (m : ℕ) (s0 : σ) (init : List Bool) :
    ∃ n, oeRun step um m s0 init = some n ∧ 1 ≤ n ∧ n ≤ m + 1 ∧
      (oeUnmaskSeq step um init s0 n = oeUnmaskSeq step um init s0 (n - 1) ∨ n = m + 1) ∧
      ((List.range (n - 1)).all (fun k =>
        !(oeUnmaskSeq step um init s0 (k + 1) == oeUnmaskSeq step um init s0 k))) = true := by
  obtain ⟨n, heq, h1, h2, h3, h4⟩ :=
    oeLoopCount_spec step um m s0 init (m + 1) 0 (by omega) (by omega)
  refine ⟨n, ?_, h1, h2, h3, ?_⟩
  · rw [oeRun]
    rw [Function.iterate_zero_apply] at heq
    have : oeUnmaskSeq step um init s0 0 = init := by simp [oeUnmaskSeq]
    rw [this] at heq
    exact heq
  · rw [List.all_eq_true]
    intro k hk
    rw [List.mem_range] at hk
    have hne := h4 (k + 1) (by omega) (by omega)
    rw [Nat.add_sub_cancel] at hne
    simpa using hne

/-- Claim C4 (counterexample): the claim says the body executes at most
`max_iters` times.  With `max_iters = 1` and a body whose unmask alternates
(`[false], [true], [false], ...` — each iteration flags a new change), the
exit test `iter > max_iters` first fires at `iter = 2`: the body executes
`max_iters + 1 = 2` times, and `2 ≤ 1` is false. -/
theorem C4_cex_body_executes_max_iters_plus_one :
    oeRun (fun b => !b) (fun b => [b]) 1 true [true] = some 2 ∧ ¬(2 ≤ 1) := by decide

/-! ### Claim C3 about `trace_lines` -/

theorem traceFeatureStep_lost (P : TraceParams) (stepv ypos : ℤ) (lookback : ℕ)
    (dataRows : List (List ℚ)) (mb : List (List ℕ)) (peaks : List ℚ)
    (f : (ℚ × Option ℚ) × List (ℚ × ℚ)) (h : f.1.2 = none) :
    traceFeatureStep P stepv ypos lookback dataRows mb peaks f = some f := by
  simp [traceFeatureStep, h]

theorem traceFeaturesFold_lost_getD {P : TraceParams} {stepv ypos : ℤ} {lookback : ℕ}
    {dataRows : List (List ℚ)} {mb : List (List ℕ)} {peaks : List ℚ} :
    ∀ {feats out : List ((ℚ × Option ℚ) × List (ℚ × ℚ))},
      traceFeaturesFold P stepv ypos lookback dataRows mb peaks feats = some out →
      ∀ i, (feats.getD i dfltFeat).1.2 = none →
        out.getD i dfltFeat = feats.getD i dfltFeat := by
  intro feats
  induction feats with
  | nil =>
    intro out h i _
    simp only [traceFeaturesFold, Option.some_inj] at h
    subst h
    rfl
  | cons f t ih =>
    intro out h i hi
    simp only [traceFeaturesFold] at h
    rcases hstep : traceFeatureStep P stepv ypos lookback dataRows mb peaks f with _ | f'
    · rw [hstep] at h
      simp at h
    · rw [hstep] at h
      rcases hrest : traceFeaturesFold P stepv ypos lookback dataRows mb peaks t with _ | rest
      · rw [hrest] at h
        simp at h
      · rw [hrest] at h
        have hout : f' :: rest = out := by simpa using h
        subst hout
        rcases i with _ | i
        · simp only [List.getD_cons_zero] at hi ⊢
          have hfix := traceFeatureStep_lost P stepv ypos lookback dataRows mb peaks f hi
          rw [hstep] at hfix
          exact Option.some_inj.mp hfix
        · simp only [List.getD_cons_succ] at hi ⊢
          exact ih hrest i hi

/-- Claim C3 (amended): within one directional pass of `trace_lines`, once a
feature's `last_coords` entry is NaN it stays NaN and its coordinate track
receives no further appends for the remainder of that pass — the NaN never
seeds a continuation.  (The second, opposite-direction pass re-initialises
`last_coords` from the initial peaks — line 1002 runs once per direction — so
a feature lost in one direction can still receive further, earlier-row
coordinates from the other direction; the counterexample exhibits exactly
that.) -/
theorem C3_trace_lost_stays_lost_within_pass (P : TraceParams) (stepv : ℤ) :
    ∀ (fuel : ℕ) (ypos : ℤ) (st : TraceSt) (i : ℕ) (st' : TraceSt),
      (st.feats.getD i dfltFeat).1.2 = none →
      tracePassLoop P stepv fuel ypos st = Except.ok (some st') →
      (st'.feats.getD i dfltFeat).1.2 = none ∧
      (st'.feats.getD i dfltFeat).2 = (st.feats.getD i dfltFeat).2 := by
  intro fuel
  induction fuel with
  | zero =>
    intro ypos st i st' _ hrun
    simp [tracePassLoop] at hrun
  | succ f ih =>
    intro ypos st i st' hlost hrun
    simp only [tracePassLoop] at hrun
    split at hrun
    · have hst : st = st' := by simpa using hrun
      subst hst
      exact ⟨hlost, rfl⟩
    · split at hrun
      · split at hrun
        · simp at hrun
        · split at hrun
          · simp at hrun
          · rename_i peaks hpin feats' hfold
            have hpres := traceFeaturesFold_lost_getD hfold i hlost
            split at hrun
            · have hst' : st' = ⟨feats', traceMaskBuf P stepv (ypos + stepv)
                  ((st.lookback + 1) ⊓ P.max_missed) st.maskBuf,
                  (st.lookback + 1) ⊓ P.max_missed⟩ :=
                (Option.some.inj (Except.ok.inj hrun)).symm
              subst hst'
              simp only
              rw [hpres]
              exact ⟨hlost, rfl⟩
            · have hrec := ih (ypos + stepv)
                ⟨feats', traceMaskBuf P stepv (ypos + stepv)
                  ((st.lookback + 1) ⊓ P.max_missed) st.maskBuf,
                  (st.lookback + 1) ⊓ P.max_missed⟩
                i st'
                (by
                  show (feats'.getD i dfltFeat).1.2 = none
                  rw [hpres]
                  exact hlost)
                hrun
              simp only at hrec
              rw [hpres] at hrec
              exact hrec
      · split at hrun
        · have hst' : st' = ⟨st.feats, traceMaskBuf P stepv (ypos + stepv)
              ((st.lookback + 1) ⊓ P.max_missed) st.maskBuf, 0⟩ :=
            (Option.some.inj (Except.ok.inj hrun)).symm
          subst hst'
          exact ⟨hlost, rfl⟩
        · exact ih (ypos + stepv)
            ⟨st.feats, traceMaskBuf P stepv (ypos + stepv)
              ((st.lookback + 1) ⊓ P.max_missed) st.maskBuf, 0⟩
            i st' hlost hrun

unseal Rat.add Rat.mul Rat.sub Rat.inv Nat.gcd in
/-- Claim C3 (counterexample): the claim says that once a feature is marked
permanently lost, no further coordinate is ever appended to its track for
the remainder of the trace in either direction.  In this concrete run
(7 × 9 image, one feature starting at row 3 position 4, `max_missed = 0`,
`step = 1`) the collapsed profile is zero everywhere above the start, so the
forward pass marks the feature lost at row 5 with an empty track (first
equation).  The full `trace_lines` call then runs the backward pass, which
RE-SEEDS `last_coords` from the initial peaks, finds the peak again at row 2
(the collapse oracle puts a symmetric bump at position 4 there) and appends
the coordinate (2, 4) to the very same track — after the feature had been
marked permanently lost (second equation). -/
theorem C3_cex_lost_feature_gets_more_coordinates :
    tracePassLoop traceCexParams 1 10 3 traceCexSt0 =
      Except.ok (some ⟨[(((5 : ℚ), none), [])], [List.replicate 9 0], 0⟩) ∧
    trace_lines traceCexParams 1 3 [4] none ⟨[], none, []⟩ 1 10 =
      Except.ok (some ([((2 : ℚ), (4 : ℚ))], [((2 : ℚ), (4 : ℚ))])) := by decide

unseal Rat.add Rat.mul Rat.sub Rat.inv Nat.gcd in
/-- Claim C3 (witness): a concrete pass in which an already-lost feature
(with a nonempty track) stays lost and its track is unchanged when the pass
ends. -/
theorem C3_witness :
    (traceCexStLostEnd.feats.getD 1 dfltFeat).1.2 = none ∧
    (traceCexStLostEnd.feats.getD 1 dfltFeat).2 = (traceCexStLost.feats.getD 1 dfltFeat).2 :=
  C3_trace_lost_stays_lost_within_pass traceCexParams 1 10 3 traceCexStLost 1
    traceCexStLostEnd (by decide) (by decide)

/-! ### Claim C5 about the iteration ceilings of the core loops -/

theorem centroidLoop_count_le (I1 I2 : ℚ → ℚ → ℚ) (hw npts : ℚ) :
    ∀ (fuel : ℕ) (xc dxlast : ℚ) (dxcheck : ℕ),
      (centroidLoop I1 I2 hw npts fuel xc dxlast dxcheck).2 ≤ fuel := by
  intro fuel
  induction fuel with
  | zero =>
    intro xc dxl dxc
    simp [centroidLoop]
  | succ f ih =>
    intro xc dxl dxc
    simp only [centroidLoop]
    split
    · simp
    · split
      · simp
      · split
        · simp
        · split
          · split
            · simp
            · exact Nat.succ_le_succ (ih _ _ _)
          · split
            · exact Nat.succ_le_succ (ih _ _ _)
            · exact Nat.succ_le_succ (ih _ _ _)

theorem epwLoop_niters_le (data : List ℚ) (widthO : ℕ → ℚ) :
    ∀ (fuel : ℕ) (st : EPWState),
      (epwLoop data widthO fuel st).niters ≤ st.niters + fuel := by
  intro fuel
  induction fuel with
  | zero =>
    intro st
    simp [epwLoop]
  | succ f ih =>
    intro st
    simp only [epwLoop]
    split
    · have h2 := ih (epwStep data widthO st)
      have hstep : (epwStep data widthO st).niters = st.niters + 1 := rfl
      omega
    · omega

theorem minSepLoopC_count_le (pin : List ℚ → List ℚ) (s : ℚ) :
    ∀ (fuel : ℕ) (l : List ℚ), (minSepLoopC pin s fuel l).2 ≤ fuel := by
  intro fuel
  induction fuel with
  | zero =>
    intro l
    simp [minSepLoopC]
  | succ f ih =>
    intro l
    simp only [minSepLoopC]
    split
    · simp
    · exact Nat.succ_le_succ (ih _)

theorem forall2_imp_count_lt {u' u : List Bool}
    (h : List.Forall₂ (fun a b => a = true → b = true) u' u) (hne : u' ≠ u) :
    countTrue u' < countTrue u := by
  induction h with
  | nil => exact absurd rfl hne
  | @cons a b l' l hab htail ih =>
    simp only [countTrue, List.count_cons] at ih ⊢
    by_cases hl : l' = l
    · subst hl
      have hab' : a ≠ b := fun hc => hne (by rw [hc])
      cases a <;> cases b
      · exact absurd rfl hab'
      · simp
      · exact absurd (hab rfl) (by simp)
      · exact absurd rfl hab'
    · have hcount := ih hl
      have hcontrib : (if a == true then 1 else 0) ≤ (if b == true then 1 else 0) := by
        cases a
        · simp
        · rw [hab rfl]
      omega

theorem oeLoopCount_none_mono_term {σ : Type} (step : σ → σ) (um : σ → List Bool)
    (hmono : ∀ t, List.Forall₂ (fun a b => a = true → b = true) (um (step t)) (um t)) :
    ∀ (fuel : ℕ) (s : σ) (j : ℕ), countTrue (um s) + 1 ≤ fuel →
      (oeLoopCount step um none fuel s (um s) j).isSome = true := by
  intro fuel
  induction fuel with
  | zero =>
    intro s j hc
    omega
  | succ f ih =>
    intro s j hc
    simp only [oeLoopCount]
    split
    · rfl
    · rename_i hcond
      have heq : um (step s) ≠ um s := by
        intro h
        apply hcond
        simp [h]
      have hlt := forall2_imp_count_lt (hmono s) heq
      exact ih (step s) (j + 1) (by omega)

theorem oeLoopCount_succ_isSome {σ : Type} (step : σ → σ) (um : σ → List Bool)
    (miters : Option ℕ) (fuel : ℕ) (s : σ) (last : List Bool) (j : ℕ)
    (h : (oeLoopCount step um miters fuel (step s) (um (step s)) (j + 1)).isSome = true) :
    (oeLoopCount step um miters (fuel + 1) s last j).isSome = true := by
  simp only [oeLoopCount]
  split
  · rfl
  · exact h

theorem tracePassLoop_no_fuel_exhaustion (P : TraceParams) (stepv : ℤ)
    (hstep : 1 ≤ stepv) :
    ∀ (fuel : ℕ) (ypos : ℤ) (st : TraceSt), 1 ≤ fuel →
      (P.shape0 : ℤ) + 1 - ypos < (fuel : ℤ) →
      tracePassLoop P stepv fuel ypos st ≠ Except.error () := by
  intro fuel
  induction fuel with
  | zero =>
    intro ypos st h1 _
    omega
  | succ f ih =>
    intro ypos st _ h2
    simp only [tracePassLoop]
    split
    · simp
    · rename_i hrange
      push_neg at hrange
      have hy : (ypos + stepv : ℤ) ≤ (P.shape0 : ℤ) := by
        have hq : ((ypos + stepv : ℤ) : ℚ) ≤ (P.shape0 : ℚ) := by
          have hn : (0 : ℚ) ≤ (P.nsum : ℚ) / 2 := by positivity
          have := hrange.2
          linarith
        exact_mod_cast hq
      have hf : 1 ≤ f := by omega
      have hf2 : (P.shape0 : ℤ) + 1 - (ypos + stepv) < (f : ℤ) := by omega
      split
      · split
        · simp
        · split
          · simp
          · split
            · simp
            · exact ih (ypos + stepv) _ hf hf2
      · split
        · simp
        · exact ih (ypos + stepv) _ hf hf2

/-- Claim C5 (amended): the centroiding loop of `pinpoint_peaks` executes at
most its explicit cap of 50 iterations; the width-estimation loop of
`estimate_peak_width` at most its explicit cap of 100; the `min_sep` cleanup
loop of `find_peaks` at most one iteration per initial peak (each iteration
deletes a peak — an implicit bound, not an explicit counter); the tracing
loop of `trace_lines` is bounded by the image extent for any positive step
(it leaves the valid `ypos` range within `shape0 + 1` steps); and the
`optimal_extraction` loop is bounded by `max_iters + 1` body executions when
`max_iters` is set — but when `max_iters` is `None` the loop control has NO
iteration ceiling (see the counterexample), and termination instead relies
on the monotone growth of the bad-pixel mask: when each body can only shrink
the unmask (`hmono`, which the real body guarantees via `mask |=
DQ.cosmic_ray`), the loop exits within `countTrue + 2` bodies. -/
theorem C5_core_loop_iteration_bounds
    (I1 I2 : ℚ → ℚ → ℚ) (hw npts xc dxlast : ℚ) (dxcheck : ℕ)
    (data : List ℚ) (widthO : ℕ → ℚ) (goodpix0 : List Bool)
    (pin : List ℚ → List ℚ) (s : ℚ) (l : List ℚ)
    {σ : Type} (step : σ → σ) (um : σ → List Bool) (m : ℕ) (s0 : σ) (init : List Bool)
    (P : TraceParams) (stepv : ℤ) (fuel : ℕ) (ypos : ℤ) (st : TraceSt)
    (hmono : ∀ t, List.Forall₂ (fun a b => a = true → b = true) (um (step t)) (um t))
    (hstep : 1 ≤ stepv) (hfuel1 : 1 ≤ fuel)
    (hfuel2 : (P.shape0 : ℤ) + 1 - ypos < (fuel : ℤ)) :
    ((centroidLoop I1 I2 hw npts 50 xc dxlast dxcheck).2 ≤ 50) ∧
    ((estimate_peak_width_loop data widthO goodpix0).niters ≤ 100) ∧
    ((minSepLoopC pin s l.length l).2 ≤ l.length) ∧
    ((oeRun step um m s0 init).getD 0 ≤ m + 1) ∧
    ((oeRun step um m s0 init).isSome = true) ∧
    ((oeLoopCount step um none (countTrue (um (step s0)) + 2) s0 init 0).isSome = true) ∧
    (tracePassLoop P stepv fuel ypos st ≠ Except.error ()) := by
  obtain ⟨n, heq, hn1, hn2, _, _⟩ :=
    oeLoopCount_spec step um m s0 init (m + 1) 0 (by omega) (by omega)
  have hoe : oeRun step um m s0 init = some n := by
    rw [oeRun]
    rw [Function.iterate_zero_apply] at heq
    have h0 : oeUnmaskSeq step um init s0 0 = init := by simp [oeUnmaskSeq]
    rw [h0] at heq
    exact heq
  refine ⟨centroidLoop_count_le I1 I2 hw npts 50 xc dxlast dxcheck,
    le_trans (epwLoop_niters_le data widthO 100 ⟨[], goodpix0, 0⟩) (by norm_num),
    minSepLoopC_count_le pin s l.length l, ?_, ?_, ?_, ?_⟩
  · rw [hoe]
    simpa using hn2
  · rw [hoe]
    rfl
  · show (oeLoopCount step um none (countTrue (um (step s0)) + 1 + 1) s0 init 0).isSome = true
    exact oeLoopCount_succ_isSome step um none _ s0 init 0
      (oeLoopCount_none_mono_term step um hmono _ (step s0) 1 (le_refl _))
  · exact tracePassLoop_no_fuel_exhaustion P stepv hstep fuel ypos st hfuel1 hfuel2

/-- Claim C5 (counterexample): the claim says every loop has an explicit
finite iteration ceiling, "including when `max_iters` is None".  With
`max_iters = None` the break test `max_iters is not None and iter >
max_iters` is never true, so the loop control imposes no ceiling: with a
body whose unmask alternates, 200 body executions still produce no exit
(first equation), while the SAME body under `max_iters = 100` stops after
101 executions (second equation) — the only ceiling is the `max_iters` one,
absent when it is None. -/
theorem C5_cex_no_ceiling_when_max_iters_none :
    oeLoopCount (fun b => !b) (fun b => [b]) none 200 true [true] 0 = none ∧
    oeLoopCount (fun b => !b) (fun b => [b]) (some 100) 200 true [true] 0 = some 101 := by
  decide

/-- Claim C5 (witness): the amended bounds at concrete instances, including a
monotone optimal-extraction body and the concrete tracing run. -/
theorem C5_witness :
    ((centroidLoop (fun _ _ => 0) (fun _ _ => 0) 0 0 50 0 0 0).2 ≤ 50) ∧
    ((estimate_peak_width_loop [] (fun _ => 0) []).niters ≤ 100) ∧
    ((minSepLoopC (fun l => l) 1 ([0, 5] : List ℚ).length [0, 5]).2
      ≤ ([0, 5] : List ℚ).length) ∧
    ((oeRun (fun _ => false) (fun b => [b]) 3 true [true]).getD 0 ≤ 3 + 1) ∧
    ((oeRun (fun _ => false) (fun b => [b]) 3 true [true]).isSome = true) ∧
    ((oeLoopCount (fun _ => false) (fun b => [b]) none
        (countTrue ((fun b : Bool => [b]) ((fun _ => false) true)) + 2) true [true] 0).isSome
      = true) ∧
    (tracePassLoop traceCexParams 1 10 3 traceCexSt0 ≠ Except.error ()) :=
  C5_core_loop_iteration_bounds (fun _ _ => 0) (fun _ _ => 0) 0 0 0 0 0
    [] (fun _ => 0) [] (fun l => l) 1 [0, 5]
    (fun _ => false) (fun b => [b]) 3 true [true]
    traceCexParams 1 10 3 traceCexSt0
    (fun t => List.Forall₂.cons (fun h => absurd h (by simp)) List.Forall₂.nil)
    (by decide) (by decide) (by decide)

end Tracing
